import Mathlib

/-!
Shallow embedding of the doubly linked list implementation (list.h / the
implementation file).  The list stores elements in three co-indexed arrays
(`data`, `nexts`, `prevs`); slot 0 is a sentinel.  Arrays are modelled as
total functions `Nat → Nat`; the C allocator is `calloc`, so fresh memory
reads as 0, and an out-of-bounds read is likewise modelled as reading 0
(every such value written by the model beyond the current capacity is 0).
Element payloads are modelled as single `Nat` values; `memcmp` equality on
`elem_size` bytes becomes equality of those values.
-/

/-- Error enumeration from list.h (`list_error_t`).  The numeric values of
the C enum are `LIST_NO_ERR = 0`, `LIST_ALLOC_ERR = 1`, `LIST_BAD_ITERATOR = 2`,
`LIST_BAD_INDEX = 3`, `LIST_EMPTY = 4`, `LIST_BAD_CAPACITY = 5`,
`LIST_BAD_ELEM_SIZE = 6`, `LIST_BAD_MEMORY = 7`, `LIST_BAD_FIRST_FREE_ELEM = 8`,
`LIST_BAD_HEAD_ITERATOR = 9`, `LIST_BAD_TAIL_ITERATOR = 10`,
`LIST_BAD_FREE_FIELDS = 11`, `LIST_BAD_BUSY_FIELDS = 12`. -/
inductive ListError where
  | LIST_NO_ERR
  | LIST_ALLOC_ERR
  | LIST_BAD_ITERATOR
  | LIST_BAD_INDEX
  | LIST_EMPTY
  | LIST_BAD_CAPACITY
  | LIST_BAD_ELEM_SIZE
  | LIST_BAD_MEMORY
  | LIST_BAD_FIRST_FREE_ELEM
  | LIST_BAD_HEAD_ITERATOR
  | LIST_BAD_TAIL_ITERATOR
  | LIST_BAD_FREE_FIELDS
  | LIST_BAD_BUSY_FIELDS
deriving DecidableEq, Repr

open ListError

/-- The `list_t_` structure from list.h.  `capacity` and `size` are the raw
internal values (sentinel included).  The `print_elem_func` pointer is
irrelevant to the list logic and omitted. -/
structure LState where
  data : Nat → Nat
  nexts : Nat → Nat
  prevs : Nat → Nat
  elem_size : Nat
  size : Nat
  capacity : Nat
  first_free : Nat
  head : Nat
  tail : Nat
  normalized : Bool

/-- Pointwise array update, modelling `a[i] = v`. -/
def upd (f : Nat → Nat) (i v : Nat) : Nat → Nat :=
  fun j => if j = i then v else f j

@[simp] theorem upd_same (f : Nat → Nat) (i v : Nat) : upd f i v i = v := by
  simp [upd]

theorem upd_other (f : Nat → Nat) {i j : Nat} (v : Nat) (h : j ≠ i) :
    upd f i v j = f j := by
  simp [upd, h]

@[simp] theorem upd_apply (f : Nat → Nat) (i v j : Nat) :
    upd f i v j = if j = i then v else f j := rfl

/-- `CAPACITY_COEFF` from list.h. -/
def CAPACITY_COEFF : Nat := 2

/-- A default (all-zero) state, used only as a fallback value. -/
def LState.default0 : LState :=
  { data := fun _ => 0, nexts := fun _ => 0, prevs := fun _ => 0
    elem_size := 0, size := 0, capacity := 0, first_free := 0
    head := 0, tail := 0, normalized := false }

instance : Inhabited LState := ⟨LState.default0⟩

/-- `list_check_iterator`: `!it || (it < lst->capacity && lst->prevs[it] != it)`. -/
def list_check_iterator (l : LState) (it : Nat) : Bool :=
  it = 0 ∨ (it < l.capacity ∧ l.prevs it ≠ it)

/-- `list_iterator_on_element`: `return it;` as a boolean. -/
def list_iterator_on_element (it : Nat) : Bool :=
  it ≠ 0

/-- `list_create_func_`: allocates the three arrays with one extra sentinel
slot, builds the initial free chain `1 → 2 → ⋯ → capacity-1 → 0` and the
self-linked sentinel.  Returns `none` when `elem_size == 0` (the allocation
failure paths of `calloc` are not modelled; memory is zero-initialised). -/
def list_create_func_ (start_capacity elem_size : Nat) : Option LState :=
  if elem_size = 0 then none
  else
    let cap := start_capacity + 1
    some
      { data := fun _ => 0
        nexts := fun i => if i = 0 then 0 else if i < cap then (i + 1) % cap else 0
        prevs := fun i => if i < cap then i else 0
        elem_size := elem_size
        size := 1
        capacity := cap
        first_free := 1
        head := 0
        tail := 0
        normalized := true }

/-- `list_get`: returns the element payload at `it`, or `none` (NULL) when
`list_check_iterator` rejects `it`. -/
def list_get (l : LState) (it : Nat) : Option Nat :=
  if ¬ list_check_iterator l it then none
  else some (l.data it)

/-- `list_swap_vals`: swaps `data[it1]` and `data[it2]` using slot 0 of the
data array as the scratch buffer, exactly in the order of the three
`memcpy` calls. -/
def list_swap_vals (l : LState) (it1 it2 : Nat) : LState :=
  let d1 := upd l.data 0 (l.data it1)
  let d2 := upd d1 it1 (d1 it2)
  let d3 := upd d2 it2 (d2 0)
  { l with data := d3 }

/-- Body of the main loop of `list_normalize`, iterating `i` from 1 while
`i < size`; `count` is the number of remaining iterations.  Returns the
final state and cursor. -/
def normLoop (l : LState) (it i : Nat) : Nat → LState × Nat
  | 0 => (l, it)
  | count + 1 =>
    if i = it then
      let it2 := l.nexts it
      let l2 := { l with nexts := upd l.nexts i ((i + 1) % l.size)
                         prevs := upd l.prevs i (i - 1) }
      normLoop l2 it2 (i + 1) count
    else
      let tmp_it := l.nexts it
      let l2 := { l with nexts := upd l.nexts it (l.nexts i) }
      let l3 := list_swap_vals l2 i it
      let pi := l3.prevs i
      let t := l3.nexts pi
      let l4 := { l3 with nexts := upd l3.nexts pi (if t > i then it else t) }
      let l5 := { l4 with prevs := upd l4.prevs i (i - 1)
                          nexts := upd l4.nexts i ((i + 1) % l4.size) }
      normLoop l5 tmp_it (i + 1) count

/-- `list_normalize`: permutes slot contents so the k-th logical element
occupies slot k, then rewrites head/tail/sentinel links and rebuilds the
free chain over slots `size .. capacity-1`. -/
def list_normalize (l : LState) : LState :=
  if l.normalized then l
  else if l.size = 1 then { l with normalized := true }
  else
    let l1 := { l with normalized := true }
    let l2 := (normLoop l1 l1.head 1 (l1.size - 1)).1
    let l3 := { l2 with head := 1, tail := l2.size - 1 }
    let l4 := { l3 with nexts := upd l3.nexts 0 l3.head
                        prevs := upd l3.prevs 0 l3.tail }
    let l5 := { l4 with first_free :=
                  if l4.size < l4.capacity ∨ l4.size = 1 then l4.size else 0 }
    { l5 with
      nexts := fun i => if l5.size ≤ i ∧ i < l5.capacity
                        then (i + 1) % l5.capacity else l5.nexts i
      prevs := fun i => if l5.size ≤ i ∧ i < l5.capacity
                        then i else l5.prevs i }

/-- `list_is_normalized`. -/
def list_is_normalized (l : LState) : Bool :=
  l.normalized

/-- The walk `for (next = lst->nexts[free]; next; next = lst->nexts[free]) free = next;`
used by the growing path of `list_change_capacity` to find the last free
slot.  Fuel bounds the walk; on every state this model is invoked on, the
chain reaches 0 within `capacity` steps. -/
def lastFreeWalk (nexts : Nat → Nat) : Nat → Nat → Nat
  | 0, cur => cur
  | fuel + 1, cur => if nexts cur = 0 then cur else lastFreeWalk nexts fuel (nexts cur)

/-- `list_change_capacity`, parameterised by whether the three `calloc`
calls succeed (`allocOk`).  On failure the temporaries are freed and
`LIST_ALLOC_ERR` is returned; note that on the shrinking path
`list_normalize` has already run at that point.  The `memcpy` of
`new_capacity` cells from the old arrays reads zeros beyond the old
allocation (see the module comment). -/
def list_change_capacity_a (allocOk : Bool) (l : LState) (new_capacity0 : Nat) :
    ListError × LState :=
  let new_capacity := new_capacity0 + 1
  if new_capacity < l.size then (LIST_BAD_CAPACITY, l)
  else
    let l1 := if new_capacity < l.capacity then list_normalize l else l
    if ¬ allocOk then (LIST_ALLOC_ERR, l1)
    else
      let new_data := fun i => if i < new_capacity then l1.data i else 0
      let new_nexts := fun i => if i < new_capacity then l1.nexts i else 0
      let new_prevs := fun i => if i < new_capacity then l1.prevs i else 0
      if l1.capacity < new_capacity then
        let l2 := { l1 with first_free :=
                      if l1.first_free ≠ 0 then l1.first_free else l1.size }
        let last := lastFreeWalk l2.nexts l2.capacity l2.first_free
        let nn := upd new_nexts last l2.size
        (LIST_NO_ERR,
          { l2 with
            data := new_data
            nexts := fun i => if l2.size ≤ i ∧ i < new_capacity
                              then (i + 1) % new_capacity else nn i
            prevs := fun i => if l2.size ≤ i ∧ i < new_capacity
                              then i else new_prevs i
            capacity := new_capacity })
      else
        (LIST_NO_ERR,
          { l1 with data := new_data, nexts := new_nexts, prevs := new_prevs
                    capacity := new_capacity })

/-- `list_change_capacity` with all allocations succeeding. -/
def list_change_capacity (l : LState) (new_capacity0 : Nat) : ListError × LState :=
  list_change_capacity_a true l new_capacity0

/-- `list_remove_first_free`: grows the list by `CAPACITY_COEFF` when full,
then pops the head of the free chain, incrementing `size`.  Returns the
error, the new state, and the popped slot. -/
def list_remove_first_free (l : LState) : ListError × LState × Nat :=
  let grown :=
    if l.size = l.capacity then
      list_change_capacity l (l.capacity * CAPACITY_COEFF)
    else (LIST_NO_ERR, l)
  if grown.1 ≠ LIST_NO_ERR then (grown.1, grown.2, 0)
  else
    let l1 := { grown.2 with size := grown.2.size + 1 }
    (LIST_NO_ERR, { l1 with first_free := l1.nexts l1.first_free }, l1.first_free)

/-- `list_insert_after`: validates the iterator, takes a slot off the free
chain, copies the value into it and splices it after `it`, updating
`tail`/`head`/`normalized` as in the source. -/
def list_insert_after (l : LState) (it v : Nat) : ListError × LState :=
  if ¬ list_check_iterator l it then (LIST_BAD_ITERATOR, l)
  else
    let r := list_remove_first_free l
    if r.1 ≠ LIST_NO_ERR then (r.1, r.2.1)
    else
      let l1 := r.2.1
      let p := r.2.2
      let l2 := { l1 with data := upd l1.data p v }
      let l3 := { l2 with nexts := upd l2.nexts p (l2.nexts it) }
      let l4 := { l3 with nexts := upd l3.nexts it p }
      let l5 := { l4 with prevs := upd l4.prevs p it }
      let l6 := { l5 with prevs := upd l5.prevs (l5.nexts p) p }
      let l7 := if l6.nexts p = 0 then { l6 with tail := p }
                else { l6 with normalized := false }
      let l8 := if l7.prevs p = 0 then { l7 with head := p } else l7
      (LIST_NO_ERR, l8)

/-- `list_insert_before`: `return list_insert_after(lst, lst->prevs[it], value);`
(note: `prevs[it]` is read before any validation of `it`). -/
def list_insert_before (l : LState) (it v : Nat) : ListError × LState :=
  list_insert_after l (l.prevs it) v

/-- `list_insert_to_head`. -/
def list_insert_to_head (l : LState) (v : Nat) : ListError × LState :=
  list_insert_before l l.head v

/-- `list_insert_to_tail`. -/
def list_insert_to_tail (l : LState) (v : Nat) : ListError × LState :=
  list_insert_after l l.tail v

/-- `list_head`. -/
def list_head (l : LState) : Nat := l.head

/-- `list_tail`. -/
def list_tail (l : LState) : Nat := l.tail

/-- `list_next`: the follower of `it`, 0 at the sentinel, or the numeric
value of `LIST_BAD_ITERATOR` (2) for an invalid iterator. -/
def list_next (l : LState) (it : Nat) : Nat :=
  if ¬ list_check_iterator l it then 2
  else if it ≠ 0 then l.nexts it else 0

/-- `list_prev`: as `list_next` but backwards. -/
def list_prev (l : LState) (it : Nat) : Nat :=
  if ¬ list_check_iterator l it then 2
  else if it ≠ 0 then l.prevs it else 0

/-- `list_erase`: a request to erase the sentinel is a no-op; otherwise the
slot is unlinked from the active chain, prepended to the free chain, and
the caller's iterator is rewritten to the next element if one exists, else
to the previous one.  Returns the error, the new state and the rewritten
iterator. -/
def list_erase (l : LState) (it : Nat) : ListError × LState × Nat :=
  if ¬ list_check_iterator l it then (LIST_BAD_ITERATOR, l, it)
  else if it = 0 then (LIST_NO_ERR, l, it)
  else
    let nx := l.nexts it
    let pv := l.prevs it
    let l1 := { l with nexts := upd l.nexts pv nx }
    let l2 := { l1 with prevs := upd l1.prevs nx pv }
    let l3 := { l2 with nexts := upd l2.nexts it l2.first_free }
    let l4 := { l3 with prevs := upd l3.prevs it it }
    let l5 := { l4 with first_free := it }
    let l6 := if it = l5.head then { l5 with head := nx } else l5
    let l7 := if it = l6.tail then { l6 with tail := pv }
              else { l6 with normalized := false }
    let l8 := { l7 with size := l7.size - 1 }
    (LIST_NO_ERR, l8, if nx ≠ 0 then nx else pv)

/-- The scan loop of `list_find`; fuel `l.size` suffices on every valid
state since the active chain reaches the sentinel in `size - 1` steps. -/
def findLoop (l : LState) (v : Nat) : Nat → Nat → Nat
  | 0, _ => 0
  | fuel + 1, it =>
    if it = 0 then 0
    else if l.data it = v then it
    else findLoop l v fuel (l.nexts it)

/-- `list_find`: linear scan from `head` by payload equality; returns the
sentinel 0 when the value is absent. -/
def list_find (l : LState) (v : Nat) : Nat :=
  findLoop l v l.size l.head

/-- `list_erase_by_value`. -/
def list_erase_by_value (l : LState) (v : Nat) : ListError × LState :=
  let it := list_find l v
  let r := list_erase l it
  (r.1, r.2.1)

/-- The walk `for (size_t i = 1; i < index; ++i) it = list_next(lst, it);`
of `list_element_at`. -/
def elemAtWalk (l : LState) : Nat → Nat → Nat
  | 0, it => it
  | k + 1, it => elemAtWalk l k (list_next l it)

/-- `list_element_at`: 0-based logical index to iterator; returns the
numeric value of `LIST_BAD_INDEX` (3) when out of range; O(1) on a
normalized list, otherwise a walk from the head. -/
def list_element_at (l : LState) (index0 : Nat) : Nat :=
  let index := index0 + 1
  if index ≥ l.size then 3
  else if l.normalized then index
  else elemAtWalk l (index - 1) (list_head l)

/-- `list_erase_by_index`. -/
def list_erase_by_index (l : LState) (index : Nat) : ListError × LState :=
  let it := list_element_at l index
  let r := list_erase l it
  (r.1, r.2.1)

/-- `list_clear`: sets `normalized`, resets `size` to 1, shrinks to the
minimum capacity and self-links the sentinel. -/
def list_clear (l : LState) : ListError × LState :=
  let l1 := { l with normalized := true, size := 1 }
  let r := list_change_capacity l1 0
  if r.1 ≠ LIST_NO_ERR then (r.1, r.2)
  else
    (LIST_NO_ERR, { r.2 with nexts := upd r.2.nexts 0 0
                             prevs := upd r.2.prevs 0 0 })

/-- `list_size` (user-visible size, sentinel excluded). -/
def list_size (l : LState) : Nat := l.size - 1

/-- `list_capacity` (user-visible capacity, sentinel excluded). -/
def list_capacity (l : LState) : Nat := l.capacity - 1

/-- The free-chain loop of `list_verify_func_`: walks the free chain from
`first_free`, failing when the count exceeds `capacity - size`, when a
visited slot is not self-marked free, or when it links to itself.  The
fuel `capacity - size + 2` is exact: the count check fires before fuel
can run out. -/
def freeWalkOk (l : LState) : Nat → Nat → Nat → Bool
  | 0, _, _ => false
  | fuel + 1, it, count =>
    if it = 0 then true
    else if l.capacity - l.size < count then false
    else if l.prevs it ≠ it then false
    else if l.nexts it = it then false
    else freeWalkOk l fuel (l.nexts it) (count + 1)

/-- The active-chain loop of `list_verify_func_`: walks from `head`,
failing when the count reaches `size` or when the double links are
inconsistent.  Fuel `size + 1` is exact as above. -/
def busyWalkOk (l : LState) : Nat → Nat → Nat → Bool
  | 0, _, _ => false
  | fuel + 1, it, count =>
    if it = 0 then true
    else if l.size ≤ count then false
    else if it ≠ l.nexts (l.prevs it) then false
    else if it ≠ l.prevs (l.nexts it) then false
    else busyWalkOk l fuel (l.nexts it) (count + 1)

/-- `list_verify_func_` on a non-null list.  The null-data check
(`LIST_BAD_MEMORY`) is not representable in this model, where the arrays
always exist; every other check is translated in order. -/
def list_verify (l : LState) : ListError :=
  if l.size = 0 ∨ l.capacity < l.size then LIST_BAD_CAPACITY
  else if l.elem_size = 0 then LIST_BAD_ELEM_SIZE
  else if (l.capacity ≤ l.first_free ∨ l.prevs l.first_free ≠ l.first_free)
          ∧ l.capacity ≠ 1 ∧ l.first_free ≠ 0 then LIST_BAD_FIRST_FREE_ELEM
  else if l.capacity ≤ l.head ∨ (l.size = 1 ∧ l.head ≠ 0) then
    LIST_BAD_HEAD_ITERATOR
  else if l.capacity ≤ l.tail ∨ (l.size = 1 ∧ l.tail ≠ 0) then
    LIST_BAD_TAIL_ITERATOR
  else if l.capacity = 1 then LIST_NO_ERR
  else if ¬ freeWalkOk l (l.capacity - l.size + 2) l.first_free 0 then
    LIST_BAD_FREE_FIELDS
  else if ¬ busyWalkOk l (l.size + 1) l.head 0 then LIST_BAD_BUSY_FIELDS
  else if l.prevs 0 ≠ l.tail then LIST_BAD_BUSY_FIELDS
  else LIST_NO_ERR

/-- `list_verify_func_` including its first line: a NULL list verifies
successfully. -/
def list_verify_opt : Option LState → ListError
  | none => LIST_NO_ERR
  | some l => list_verify l

/-- The public mutating operations of the list taking part in the
insert/erase invariant claim. -/
inductive LOp where
  | insertAfter (it v : Nat)
  | insertBefore (it v : Nat)
  | insertToHead (v : Nat)
  | insertToTail (v : Nat)
  | eraseAt (it : Nat)
  | eraseByValue (v : Nat)
  | eraseByIndex (index : Nat)

/-- Apply one public operation, keeping the resulting state (failed
operations leave the state unchanged in the source as well). -/
def applyOp (l : LState) : LOp → LState
  | .insertAfter it v => (list_insert_after l it v).2
  | .insertBefore it v => (list_insert_before l it v).2
  | .insertToHead v => (list_insert_to_head l v).2
  | .insertToTail v => (list_insert_to_tail l v).2
  | .eraseAt it => (list_erase l it).2.1
  | .eraseByValue v => (list_erase_by_value l v).2
  | .eraseByIndex i => (list_erase_by_index l i).2

/-- Run a sequence of public operations. -/
def runOps (l : LState) (ops : List LOp) : LState :=
  ops.foldl applyOp l

/-- The sequence of payload values seen by a forward walk along `nexts`
from `head`, with fuel (the walk of `list_print` / `list_find`). -/
def forwardVals (l : LState) : Nat → Nat → List Nat
  | 0, _ => []
  | fuel + 1, it => if it = 0 then [] else l.data it :: forwardVals l fuel (l.nexts it)

/-- Forward value sequence of the whole list, with fuel `capacity + 1`
(enough to reach the sentinel on every well-formed state). -/
def listVals (l : LState) : List Nat :=
  forwardVals l (l.capacity + 1) l.head

/-!
## Representation invariant

`ThreadsFrom l a xs c` states that starting at slot `a`, the `nexts` array
threads exactly the slots of `xs` in order and then reaches `c`, with the
`prevs` array inverting every one of those links.  `ThreadsFrom l 0 act 0`
is the circular active chain through the sentinel.  `FreeChain l c fr`
states that the singly linked free chain starting at pointer `c` visits
exactly `fr` and terminates at the sentinel value 0.
-/

def ThreadsFrom (l : LState) : Nat → List Nat → Nat → Prop
  | a, [], c => l.nexts a = c ∧ l.prevs c = a
  | a, x :: xs, c => l.nexts a = x ∧ l.prevs x = a ∧ ThreadsFrom l x xs c

def ThreadsFrom.dec (l : LState) : (a : Nat) → (xs : List Nat) → (c : Nat) →
    Decidable (ThreadsFrom l a xs c)
  | _, [], _ => inferInstanceAs (Decidable (_ ∧ _))
  | _, x :: xs, c =>
    have : Decidable (ThreadsFrom l x xs c) := ThreadsFrom.dec l x xs c
    inferInstanceAs (Decidable (_ ∧ _ ∧ _))

instance (l : LState) (a : Nat) (xs : List Nat) (c : Nat) :
    Decidable (ThreadsFrom l a xs c) := ThreadsFrom.dec l a xs c

def FreeChain (l : LState) : Nat → List Nat → Prop
  | c, [] => c = 0
  | c, x :: xs => c = x ∧ FreeChain l (l.nexts x) xs

def FreeChain.dec (l : LState) : (c : Nat) → (xs : List Nat) →
    Decidable (FreeChain l c xs)
  | _, [] => inferInstanceAs (Decidable (_ = _))
  | c, x :: xs =>
    have : Decidable (FreeChain l (l.nexts x) xs) := FreeChain.dec l (l.nexts x) xs
    inferInstanceAs (Decidable (_ ∧ _))

instance (l : LState) (c : Nat) (xs : List Nat) :
    Decidable (FreeChain l c xs) := FreeChain.dec l c xs

/-- Last element of a list, with a default for the empty list. -/
def lastD (xs : List Nat) (d : Nat) : Nat :=
  match xs with
  | [] => d
  | x :: xs => lastD xs x

@[simp] theorem lastD_nil (d : Nat) : lastD [] d = d := rfl

@[simp] theorem lastD_cons (x d : Nat) (xs : List Nat) :
    lastD (x :: xs) d = lastD xs x := rfl

theorem lastD_append_cons :
    ∀ (A B : List Nat) (s d : Nat), lastD (A ++ s :: B) d = lastD B s := by
  intro A
  induction A with
  | nil => intro B s d; rfl
  | cons a A ih => intro B s d; simpa using ih B s a

theorem lastD_mem : ∀ (xs : List Nat) (d : Nat), lastD xs d = d ∨ lastD xs d ∈ xs := by
  intro xs
  induction xs with
  | nil => intro d; exact Or.inl rfl
  | cons x xs ih =>
    intro d
    rcases ih x with h | h
    · exact Or.inr (by simp [h])
    · exact Or.inr (by simp [h])

theorem tf_append (l : LState) (x c : Nat) :
    ∀ (a : Nat) (A B : List Nat),
      ThreadsFrom l a (A ++ x :: B) c ↔
        ThreadsFrom l a A x ∧ ThreadsFrom l x B c := by
  intro a A
  induction A generalizing a with
  | nil => intro B; simp [ThreadsFrom, and_assoc]
  | cons y A ih =>
    intro B
    simp only [List.cons_append, ThreadsFrom, List.append_eq, ih, and_assoc]

theorem tf_first (l : LState) {a : Nat} {A : List Nat} {b : Nat}
    (h : ThreadsFrom l a A b) : l.nexts a = A.headD b := by
  cases A with
  | nil => exact h.1
  | cons x xs => exact h.1

theorem tf_last (l : LState) :
    ∀ {A : List Nat} {a b : Nat}, ThreadsFrom l a A b → l.prevs b = lastD A a := by
  intro A
  induction A with
  | nil => intro a b h; exact h.2
  | cons x xs ih =>
    intro a b h
    rw [lastD_cons]
    exact ih h.2.2

theorem tf_prevs_next (l : LState) {x : Nat} {B : List Nat} {c : Nat}
    (h : ThreadsFrom l x B c) : l.prevs (l.nexts x) = x := by
  cases B with
  | nil => rw [h.1]; exact h.2
  | cons b B' => rw [h.1]; exact h.2.1

theorem tf_congr (l l' : LState) :
    ∀ {a : Nat} {xs : List Nat} {c : Nat},
      ThreadsFrom l a xs c →
      (∀ x, x = a ∨ x ∈ xs → l'.nexts x = l.nexts x) →
      (∀ y, y ∈ xs ∨ y = c → l'.prevs y = l.prevs y) →
      ThreadsFrom l' a xs c := by
  intro a xs
  induction xs generalizing a with
  | nil =>
    intro c h hn hp
    exact ⟨(hn a (Or.inl rfl)).trans h.1, (hp c (Or.inr rfl)).trans h.2⟩
  | cons x xs ih =>
    intro c h hn hp
    refine ⟨(hn a (Or.inl rfl)).trans h.1, (hp x (Or.inl (List.mem_cons_self x xs))).trans h.2.1, ?_⟩
    exact ih h.2.2 (fun z hz => hn z (by rcases hz with h' | h' <;> simp [h']))
      (fun z hz => hp z (by rcases hz with h' | h' <;> simp [h']))

theorem fc_congr (l l' : LState) :
    ∀ {c : Nat} {xs : List Nat},
      FreeChain l c xs →
      (∀ x ∈ xs, l'.nexts x = l.nexts x) →
      FreeChain l' c xs := by
  intro c xs
  induction xs generalizing c with
  | nil => intro h _; exact h
  | cons x xs ih =>
    intro h hn
    refine ⟨h.1, ?_⟩
    rw [hn x (List.mem_cons_self x xs)]
    exact ih h.2 (fun z hz => hn z (List.mem_cons_of_mem _ hz))

theorem fc_head (l : LState) {c : Nat} {xs : List Nat}
    (h : FreeChain l c xs) : c = xs.headD 0 := by
  cases xs with
  | nil => exact h
  | cons x xs => exact h.1

/-- Helper: `headD` of a list split around a distinguished element. -/
theorem headD_append_cons {A B : List Nat} {s d : Nat} :
    (A ++ s :: B).headD d = A.headD s := by
  cases A <;> simp

theorem tf_last_next (l : LState) :
    ∀ {A : List Nat} {a b : Nat}, ThreadsFrom l a A b → l.nexts (lastD A a) = b := by
  intro A
  induction A with
  | nil => intro a b h; exact h.1
  | cons x xs ih => intro a b h; exact ih h.2.2

/-- The representation invariant: `act` is the list of active slots in
logical order, `fr` the free chain in order.  `hfc`'s right disjunct covers
the state produced by `list_create_func_` with user capacity 0, whose
`first_free` is 1 with no slot to point at. -/
structure LRep (l : LState) (act fr : List Nat) : Prop where
  hsize : l.size = act.length + 1
  helem : 0 < l.elem_size
  hcap : act.length + fr.length + 1 = l.capacity
  hmem : ∀ x ∈ act ++ fr, 0 < x ∧ x < l.capacity
  hnd : (0 :: (act ++ fr)).Nodup
  hcov : ∀ x ∈ List.range l.capacity, 0 < x → x ∈ act ∨ x ∈ fr
  hth : ThreadsFrom l 0 act 0
  hhd : l.head = act.headD 0
  htl : l.tail = lastD act 0
  hfp : ∀ x ∈ fr, l.prevs x = x
  hfc : FreeChain l l.first_free fr ∨ (l.capacity = 1 ∧ l.first_free = 1)
  hnc : l.nexts l.capacity = 0

theorem rep_iff (l : LState) (act fr : List Nat) :
    LRep l act fr ↔
      l.size = act.length + 1 ∧
      0 < l.elem_size ∧
      act.length + fr.length + 1 = l.capacity ∧
      (∀ x ∈ act ++ fr, 0 < x ∧ x < l.capacity) ∧
      (0 :: (act ++ fr)).Nodup ∧
      (∀ x ∈ List.range l.capacity, 0 < x → x ∈ act ∨ x ∈ fr) ∧
      ThreadsFrom l 0 act 0 ∧
      l.head = act.headD 0 ∧
      l.tail = lastD act 0 ∧
      (∀ x ∈ fr, l.prevs x = x) ∧
      (FreeChain l l.first_free fr ∨ (l.capacity = 1 ∧ l.first_free = 1)) ∧
      l.nexts l.capacity = 0 := by
  constructor
  · rintro ⟨h1, h2, h3, h4, h5, h6, h7, h8, h9, h10, h11, h12⟩
    exact ⟨h1, h2, h3, h4, h5, h6, h7, h8, h9, h10, h11, h12⟩
  · rintro ⟨h1, h2, h3, h4, h5, h6, h7, h8, h9, h10, h11, h12⟩
    exact ⟨h1, h2, h3, h4, h5, h6, h7, h8, h9, h10, h11, h12⟩

instance (l : LState) (act fr : List Nat) : Decidable (LRep l act fr) :=
  decidable_of_iff _ (rep_iff l act fr).symm

theorem rep_cap_pos {l : LState} {act fr : List Nat} (h : LRep l act fr) :
    0 < l.capacity := by
  have := h.hcap; omega

theorem rep_size_le {l : LState} {act fr : List Nat} (h : LRep l act fr) :
    l.size ≤ l.capacity := by
  have h1 := h.hcap; have h2 := h.hsize; omega

theorem rep_act_bounds {l : LState} {act fr : List Nat} (h : LRep l act fr)
    {x : Nat} (hx : x ∈ act) : 0 < x ∧ x < l.capacity :=
  h.hmem x (List.mem_append.mpr (Or.inl hx))

theorem rep_fr_bounds {l : LState} {act fr : List Nat} (h : LRep l act fr)
    {x : Nat} (hx : x ∈ fr) : 0 < x ∧ x < l.capacity :=
  h.hmem x (List.mem_append.mpr (Or.inr hx))

theorem rep_nodup_parts {l : LState} {act fr : List Nat} (h : LRep l act fr) :
    act.Nodup ∧ fr.Nodup ∧ (∀ x ∈ act, x ∉ fr) ∧ 0 ∉ act ∧ 0 ∉ fr := by
  have h0 := h.hnd
  rw [List.nodup_cons, List.nodup_append] at h0
  refine ⟨h0.2.1, h0.2.2.1, ?_, ?_, ?_⟩
  · intro x hx hx'; exact h0.2.2.2 hx hx'
  · intro hx; exact h0.1 (List.mem_append.mpr (Or.inl hx))
  · intro hx; exact h0.1 (List.mem_append.mpr (Or.inr hx))

theorem rep_split_links {l : LState} {act fr : List Nat} (h : LRep l act fr)
    {A B : List Nat} {s : Nat} (hs : act = A ++ s :: B) :
    l.prevs s = lastD A 0 ∧ l.nexts s = B.headD 0 ∧
      l.nexts (lastD A 0) = s ∧ l.prevs (B.headD 0) = s := by
  have hth := h.hth
  rw [hs, tf_append] at hth
  refine ⟨tf_last l hth.1, tf_first l hth.2, tf_last_next l hth.1, ?_⟩
  have := tf_prevs_next l hth.2
  rwa [tf_first l hth.2] at this

theorem rep_prevs_ne_self {l : LState} {act fr : List Nat} (h : LRep l act fr)
    {s : Nat} (hs : s ∈ act) : l.prevs s ≠ s := by
  obtain ⟨A, B, hAB⟩ := List.append_of_mem hs
  have hl := (rep_split_links h hAB).1
  have hnd := (rep_nodup_parts h).1
  rw [hAB] at hnd
  have hsA : s ∉ A := by
    have := List.nodup_middle.mp hnd
    rw [List.nodup_cons] at this
    intro hmem; exact this.1 (List.mem_append.mpr (Or.inl hmem))
  have hspos : 0 < s := (rep_act_bounds h hs).1
  rcases lastD_mem A 0 with h0 | h0
  · rw [hl, h0]; omega
  · rw [hl]; intro heq; rw [heq] at h0; exact hsA h0

theorem rep_check_iff {l : LState} {act fr : List Nat} (h : LRep l act fr)
    (it : Nat) : list_check_iterator l it = true ↔ it = 0 ∨ it ∈ act := by
  simp only [list_check_iterator, decide_eq_true_eq]
  constructor
  · rintro (h0 | ⟨hlt, hne⟩)
    · exact Or.inl h0
    · rcases Nat.eq_zero_or_pos it with h0 | hpos
      · exact Or.inl h0
      · rcases h.hcov it (List.mem_range.mpr hlt) hpos with ha | hf
        · exact Or.inr ha
        · exact absurd (h.hfp it hf) hne
  · rintro (h0 | ha)
    · exact Or.inl h0
    · exact Or.inr ⟨(rep_act_bounds h ha).2, rep_prevs_ne_self h ha⟩

theorem rep_nexts_zero {l : LState} {act fr : List Nat} (h : LRep l act fr) :
    l.nexts 0 = act.headD 0 := by
  have := tf_first l h.hth
  cases act <;> simpa using this

theorem rep_prevs_zero {l : LState} {act fr : List Nat} (h : LRep l act fr) :
    l.prevs 0 = lastD act 0 :=
  tf_last l h.hth

theorem freeWalk_sound (l : LState) :
    ∀ (fr : List Nat) (c count fuel : Nat),
      FreeChain l c fr →
      (∀ x ∈ fr, l.prevs x = x) →
      (∀ x ∈ fr, 0 < x) →
      fr.Nodup →
      count + fr.length ≤ l.capacity - l.size →
      fr.length < fuel →
      freeWalkOk l fuel c count = true := by
  intro fr
  induction fr with
  | nil =>
    intro c count fuel hch _ _ _ _ hfuel
    cases fuel with
    | zero => omega
    | succ f => rw [hch]; simp [freeWalkOk]
  | cons x xs ih =>
    intro c count fuel hch hself hpos hnd hcount hfuel
    cases fuel with
    | zero => simp at hfuel
    | succ f =>
      obtain ⟨rfl, hch'⟩ := hch
      have hx0 : c ≠ 0 := (hpos c (List.mem_cons_self c xs)).ne'
      have hxx : l.prevs c = c := hself c (List.mem_cons_self c xs)
      have hnx : l.nexts c ≠ c := by
        have hh := fc_head l hch'
        cases xs with
        | nil => rw [hh]; simpa using Ne.symm hx0
        | cons y ys =>
          rw [hh]
          simp only [List.headD_cons]
          intro heq
          rw [List.nodup_cons] at hnd
          exact hnd.1 (heq ▸ List.mem_cons_self y ys)
      have hlen : count + (xs.length + 1) ≤ l.capacity - l.size := by
        simpa using hcount
      simp only [freeWalkOk, if_neg hx0]
      rw [if_neg (by omega), if_neg (by simp [hxx]), if_neg (by simpa using hnx)]
      exact ih (l.nexts c) (count + 1) f hch'
        (fun z hz => hself z (List.mem_cons_of_mem _ hz))
        (fun z hz => hpos z (List.mem_cons_of_mem _ hz))
        (List.Nodup.of_cons hnd)
        (by omega)
        (by simpa using hfuel)

theorem busyWalk_sound (l : LState) :
    ∀ (xs : List Nat) (a count fuel : Nat),
      ThreadsFrom l a xs 0 →
      (∀ x ∈ xs, 0 < x) →
      count + xs.length + 1 ≤ l.size →
      xs.length < fuel →
      busyWalkOk l fuel (l.nexts a) count = true := by
  intro xs
  induction xs with
  | nil =>
    intro a count fuel hth _ _ hfuel
    cases fuel with
    | zero => omega
    | succ f => rw [hth.1]; simp [busyWalkOk]
  | cons x xs ih =>
    intro a count fuel hth hpos hcount hfuel
    cases fuel with
    | zero => simp at hfuel
    | succ f =>
      obtain ⟨hna, hpx, hth'⟩ := hth
      have hx0 : x ≠ 0 := (hpos x (List.mem_cons_self x xs)).ne'
      have hlen : count + (xs.length + 1) + 1 ≤ l.size := by simpa using hcount
      rw [hna]
      simp only [busyWalkOk, if_neg hx0]
      rw [if_neg (by omega),
          if_neg (by rw [hpx, hna]; simp),
          if_neg (by rw [tf_prevs_next l hth']; simp)]
      exact ih x (count + 1) f hth'
        (fun z hz => hpos z (List.mem_cons_of_mem _ hz))
        (by omega)
        (by simpa using hfuel)

theorem rep_verify {l : LState} {act fr : List Nat} (h : LRep l act fr) :
    list_verify l = LIST_NO_ERR := by
  have hcap1 : 0 < l.capacity := rep_cap_pos h
  have hszle : l.size ≤ l.capacity := rep_size_le h
  have hsz := h.hsize
  have hc := h.hcap
  unfold list_verify
  rw [if_neg (by omega)]
  rw [if_neg (by have := h.helem; omega)]
  rw [if_neg ?hff]
  case hff =>
    rcases h.hfc with hfc | ⟨hc1, _⟩
    · cases fr with
      | nil => rw [hfc]; simp
      | cons x xs =>
        rw [hfc.1]
        have hb := rep_fr_bounds h (List.mem_cons_self x xs)
        have hp := h.hfp x (List.mem_cons_self x xs)
        intro hcon
        rcases hcon.1 with hcon1 | hcon1
        · omega
        · exact hcon1 hp
    · intro hcon; exact hcon.2.1 hc1
  rw [if_neg ?hhd]
  case hhd =>
    rw [h.hhd]
    cases act with
    | nil => simp at hsz ⊢; omega
    | cons x xs =>
      have hb := rep_act_bounds h (List.mem_cons_self x xs)
      simp only [List.headD_cons]
      intro hcon
      rcases hcon with hcon | hcon
      · omega
      · simp at hsz; omega
  rw [if_neg ?htl]
  case htl =>
    rw [h.htl]
    cases act with
    | nil => simp at hsz ⊢; omega
    | cons x xs =>
      have hmem : lastD (x :: xs) 0 ∈ x :: xs := by
        rw [lastD_cons]
        rcases lastD_mem xs x with h0 | h0
        · rw [h0]; exact List.mem_cons_self x xs
        · exact List.mem_cons_of_mem _ h0
      have hb := rep_act_bounds h hmem
      intro hcon
      rcases hcon with hcon | hcon
      · omega
      · simp at hsz; omega
  by_cases hc1 : l.capacity = 1
  · rw [if_pos hc1]
  · rw [if_neg hc1]
    have hnd := rep_nodup_parts h
    rw [if_neg ?hfw]
    case hfw =>
      rcases h.hfc with hfc | ⟨hc1', _⟩
      · rw [freeWalk_sound l fr l.first_free 0 (l.capacity - l.size + 2) hfc
          h.hfp (fun z hz => (rep_fr_bounds h hz).1) hnd.2.1 (by omega) (by omega)]
        simp
      · exact absurd hc1' hc1
    rw [if_neg ?hbw]
    case hbw =>
      have hstart : l.head = l.nexts 0 := by rw [rep_nexts_zero h, h.hhd]
      rw [hstart,
        busyWalk_sound l act 0 0 (l.size + 1) h.hth
          (fun z hz => (rep_act_bounds h hz).1) (by omega) (by omega)]
      simp
    rw [if_neg (by rw [rep_prevs_zero h, h.htl]; simp)]

theorem fc_formula (m : LState) (capT lo : Nat)
    (hform : ∀ i, lo ≤ i → i < capT → m.nexts i = (i + 1) % capT) :
    ∀ (cnt start : Nat), lo ≤ start → start + cnt = capT →
      FreeChain m (start % capT) (List.range' start cnt) := by
  intro cnt
  induction cnt with
  | zero =>
    intro start _ hsum
    have : start = capT := by omega
    subst this
    simp [FreeChain, Nat.mod_self]
  | succ n ih =>
    intro start hlo hsum
    rw [List.range'_succ]
    have hlt : start < capT := by omega
    refine ⟨Nat.mod_eq_of_lt hlt, ?_⟩
    rw [hform start hlo hlt]
    exact ih (start + 1) (by omega) (by omega)

theorem rep_create {sc es : Nat} {l0 : LState}
    (h : list_create_func_ sc es = some l0) : LRep l0 [] (List.range' 1 sc) := by
  unfold list_create_func_ at h
  by_cases hes : es = 0
  · rw [if_pos hes] at h; exact absurd h (by simp)
  · rw [if_neg hes] at h
    simp only [Option.some_inj] at h
    subst h
    have hmemr : ∀ x ∈ List.range' 1 sc, 1 ≤ x ∧ x < 1 + sc := by
      intro x hx; exact List.mem_range'_1.mp hx
    refine ⟨rfl, Nat.pos_of_ne_zero hes, by simp, ?_, ?_, ?_, ?_, rfl, rfl, ?_, ?_, ?_⟩
    · intro x hx
      simp only [List.nil_append] at hx
      have := hmemr x hx
      exact ⟨by omega, show x < sc + 1 by omega⟩
    · simp only [List.nil_append, List.nodup_cons]
      refine ⟨fun hx => ?_, List.nodup_range' 1 sc⟩
      have := hmemr 0 hx; omega
    · intro x hx hpos
      right
      rw [List.mem_range'_1]
      rw [List.mem_range] at hx
      have hx' : x < sc + 1 := hx
      omega
    · exact ⟨by simp, by simp⟩
    · intro x hx
      have := hmemr x hx
      simp only []
      rw [if_pos (by omega)]
    · cases sc with
      | zero => exact Or.inr ⟨rfl, rfl⟩
      | succ n =>
        left
        have hmod : 1 % (n + 1 + 1) = 1 := Nat.mod_eq_of_lt (by omega)
        have := fc_formula
          { data := fun _ => 0
            nexts := fun i => if i = 0 then 0 else
              if i < n + 1 + 1 then (i + 1) % (n + 1 + 1) else 0
            prevs := fun i => if i < n + 1 + 1 then i else 0
            elem_size := es, size := 1, capacity := n + 1 + 1, first_free := 1
            head := 0, tail := 0, normalized := true }
          (n + 1 + 1) 1
          (by intro i h1 h2; simp only []; rw [if_neg (by omega), if_pos h2])
          (n + 1) 1 (by omega) (by omega)
        rwa [hmod] at this
    · simp

/-- The state produced by growing a full list (the only growth the insert
path triggers): capacity `2*cap + 1`, the old slots intact, and the new
slots `size .. 2*cap` appended as the free chain. -/
def grownState (l : LState) : LState :=
  { data := fun i => if i < l.capacity * 2 + 1 then l.data i else 0
    nexts := fun i => if l.size ≤ i ∧ i < l.capacity * 2 + 1
                      then (i + 1) % (l.capacity * 2 + 1)
                      else upd (fun j => if j < l.capacity * 2 + 1 then l.nexts j else 0)
                        l.size l.size i
    prevs := fun i => if l.size ≤ i ∧ i < l.capacity * 2 + 1 then i
                      else if i < l.capacity * 2 + 1 then l.prevs i else 0
    elem_size := l.elem_size
    size := l.size
    capacity := l.capacity * 2 + 1
    first_free := l.size
    head := l.head
    tail := l.tail
    normalized := l.normalized }

theorem grow_eq {l : LState} {act : List Nat} (h : LRep l act [])
    (hfull : l.size = l.capacity) :
    list_change_capacity l (l.capacity * CAPACITY_COEFF) = (LIST_NO_ERR, grownState l) := by
  have hcp : 0 < l.capacity := rep_cap_pos h
  have hff2 : (if l.first_free ≠ 0 then l.first_free else l.size) = l.size := by
    rcases h.hfc with hfc | ⟨hc1, hf1⟩
    · rw [show l.first_free = 0 from hfc]; simp
    · rw [hf1, if_pos (by omega)]
      omega
  have hnxsz : l.nexts l.size = 0 := by rw [hfull]; exact h.hnc
  have hwalk : lastFreeWalk l.nexts l.capacity l.size = l.size := by
    cases hcap : l.capacity with
    | zero => omega
    | succ f => simp [lastFreeWalk, hnxsz]
  have hsle : l.size ≤ l.capacity := rep_size_le h
  have hns : ¬ l.capacity * 2 + 1 < l.size := by omega
  have hno : ¬ l.capacity * 2 + 1 < l.capacity := by omega
  have hyes : l.capacity < l.capacity * 2 + 1 := by omega
  unfold list_change_capacity list_change_capacity_a
  simp only [CAPACITY_COEFF, if_neg hns, if_neg hno,
    if_neg (show ¬ ¬ (true = true) by simp), if_pos hyes, hff2, hwalk]
  rfl

theorem grown_nexts_lt (l : LState) {i : Nat} (hi : i < l.size)
    (hs : l.size ≤ l.capacity) : (grownState l).nexts i = l.nexts i := by
  simp only [grownState]
  rw [if_neg (by omega), upd_apply, if_neg (by omega), if_pos (by omega)]

theorem grown_prevs_lt (l : LState) {i : Nat} (hi : i < l.size)
    (hs : l.size ≤ l.capacity) : (grownState l).prevs i = l.prevs i := by
  simp only [grownState]
  rw [if_neg (by omega), if_pos (by omega)]

theorem grown_nexts_hi (l : LState) {i : Nat} (h1 : l.size ≤ i)
    (h2 : i < l.capacity * 2 + 1) :
    (grownState l).nexts i = (i + 1) % (l.capacity * 2 + 1) := by
  simp only [grownState]
  rw [if_pos ⟨h1, h2⟩]

theorem grown_prevs_hi (l : LState) {i : Nat} (h1 : l.size ≤ i)
    (h2 : i < l.capacity * 2 + 1) : (grownState l).prevs i = i := by
  simp only [grownState]
  rw [if_pos ⟨h1, h2⟩]

theorem grow_rep {l : LState} {act : List Nat} (h : LRep l act [])
    (hfull : l.size = l.capacity) :
    LRep (grownState l) act (List.range' l.size (l.capacity + 1)) := by
  have hsz := h.hsize
  have hc := h.hcap
  have hcp : 0 < l.capacity := rep_cap_pos h
  have hsle : l.size ≤ l.capacity := rep_size_le h
  have hszpos : 0 < l.size := by omega
  have hactlt : ∀ x ∈ act, 0 < x ∧ x < l.size := by
    intro x hx
    have := rep_act_bounds h hx
    omega
  have hmemr : ∀ x ∈ List.range' l.size (l.capacity + 1),
      l.size ≤ x ∧ x < l.size + (l.capacity + 1) := by
    intro x hx; exact List.mem_range'_1.mp hx
  refine ⟨hsz, h.helem, ?_, ?_, ?_, ?_, ?_, h.hhd, h.htl, ?_, ?_, ?_⟩
  · show act.length + (List.range' l.size (l.capacity + 1)).length + 1 = l.capacity * 2 + 1
    simp only [List.length_range']
    omega
  · intro x hx
    rcases List.mem_append.mp hx with hx | hx
    · have := hactlt x hx
      exact ⟨this.1, show x < l.capacity * 2 + 1 by omega⟩
    · have := hmemr x hx
      exact ⟨by omega, show x < l.capacity * 2 + 1 by omega⟩
  · rw [List.nodup_cons, List.nodup_append]
    have hnd := rep_nodup_parts h
    refine ⟨?_, by simpa using hnd.1, List.nodup_range' _ _, ?_⟩
    · intro hx
      rcases List.mem_append.mp hx with hx | hx
      · exact hnd.2.2.2.1 hx
      · have := hmemr 0 hx; omega
    · intro x hx hx'
      have h1 := hactlt x hx
      have h2 := hmemr x hx'
      omega
  · intro x hx hpos
    rw [List.mem_range] at hx
    have hx' : x < l.capacity * 2 + 1 := hx
    by_cases hlt : x < l.size
    · rcases h.hcov x (List.mem_range.mpr (by omega)) hpos with ha | hf
      · exact Or.inl ha
      · exact absurd hf (List.not_mem_nil x)
    · right
      rw [List.mem_range'_1]
      omega
  · refine tf_congr l (grownState l) h.hth ?_ ?_
    · intro x hx
      rcases hx with rfl | hx
      · exact grown_nexts_lt l hszpos hsle
      · exact grown_nexts_lt l (hactlt x hx).2 hsle
    · intro y hy
      rcases hy with hy | rfl
      · exact grown_prevs_lt l (hactlt y hy).2 hsle
      · exact grown_prevs_lt l hszpos hsle
  · intro x hx
    have := hmemr x hx
    exact grown_prevs_hi l (by omega) (by omega)
  · left
    show FreeChain (grownState l) l.size (List.range' l.size (l.capacity + 1))
    have hform : ∀ i, l.size ≤ i → i < l.capacity * 2 + 1 →
        (grownState l).nexts i = (i + 1) % (l.capacity * 2 + 1) := by
      intro i h1 h2; exact grown_nexts_hi l h1 h2
    have hfc := fc_formula (grownState l) (l.capacity * 2 + 1) l.size hform
      (l.capacity + 1) l.size (le_refl _) (by omega)
    rwa [Nat.mod_eq_of_lt (by omega)] at hfc
  · show (grownState l).nexts (l.capacity * 2 + 1) = 0
    simp only [grownState]
    rw [if_neg (by omega), upd_apply, if_neg (by omega), if_neg (by omega)]

theorem rff_spec {l : LState} {act fr : List Nat} (h : LRep l act fr) :
    ∃ (lg : LState) (p : Nat) (rest : List Nat),
      LRep lg act (p :: rest) ∧
      lg.normalized = l.normalized ∧ lg.head = l.head ∧ lg.tail = l.tail ∧
      lg.size = l.size ∧
      (∀ x, x = 0 ∨ x ∈ act → lg.nexts x = l.nexts x ∧ lg.prevs x = l.prevs x) ∧
      list_remove_first_free l =
        (LIST_NO_ERR, { lg with size := lg.size + 1, first_free := lg.nexts p }, p) := by
  have hsz := h.hsize
  have hc := h.hcap
  have hsle := rep_size_le h
  have hszpos : 0 < l.size := by omega
  by_cases hfull : l.size = l.capacity
  · have hfr : fr = [] := by
      have : fr.length = 0 := by omega
      exact List.length_eq_zero.mp this
    subst hfr
    refine ⟨grownState l, l.size, List.range' (l.size + 1) l.capacity, ?_, rfl, rfl, rfl, rfl, ?_, ?_⟩
    · have := grow_rep h hfull
      rwa [show List.range' l.size (l.capacity + 1) =
        l.size :: List.range' (l.size + 1) l.capacity from List.range'_succ _ _ _] at this
    · intro x hx
      rcases hx with rfl | hx
      · exact ⟨grown_nexts_lt l hszpos hsle, grown_prevs_lt l hszpos hsle⟩
      · have hb := rep_act_bounds h hx
        have hxlt : x < l.size := by omega
        exact ⟨grown_nexts_lt l hxlt hsle, grown_prevs_lt l hxlt hsle⟩
    · unfold list_remove_first_free
      rw [if_pos hfull, grow_eq h hfull]
      rw [if_neg (show ¬ (LIST_NO_ERR, grownState l).1 ≠ LIST_NO_ERR by simp)]
      rfl
  · have hfrlen : 0 < fr.length := by omega
    cases fr with
    | nil => simp at hfrlen
    | cons p rest =>
      have hff : l.first_free = p := by
        rcases h.hfc with hfc | ⟨hc1, _⟩
        · exact hfc.1
        · have hb := rep_fr_bounds h (List.mem_cons_self p rest)
          omega
      refine ⟨l, p, rest, h, rfl, rfl, rfl, rfl, fun x _ => ⟨rfl, rfl⟩, ?_⟩
      unfold list_remove_first_free
      rw [if_neg hfull]
      rw [if_neg (show ¬ (LIST_NO_ERR, l).1 ≠ LIST_NO_ERR by simp)]
      simp only [hff]

/-- The state after a successful `list_insert_after`, in terms of the
post-growth pre-pop state `lg`, the popped slot `p`, the splice point `it`
and the value `v`. -/
def spliceState (lg : LState) (p it v : Nat) : LState :=
  { data := upd lg.data p v
    nexts := upd (upd lg.nexts p (lg.nexts it)) it p
    prevs := upd (upd lg.prevs p it) (lg.nexts it) p
    elem_size := lg.elem_size
    size := lg.size + 1
    capacity := lg.capacity
    first_free := lg.nexts p
    head := if it = 0 then p else lg.head
    tail := if lg.nexts it = 0 then p else lg.tail
    normalized := if lg.nexts it = 0 then lg.normalized else false }

set_option maxHeartbeats 1000000 in
theorem insert_after_eq {l lg : LState} {p : Nat} (it v : Nat)
    (hchk : list_check_iterator l it = true)
    (heq : list_remove_first_free l =
      (LIST_NO_ERR, { lg with size := lg.size + 1, first_free := lg.nexts p }, p))
    (hpit : p ≠ it) (hpq : p ≠ lg.nexts it) :
    list_insert_after l it v = (LIST_NO_ERR, spliceState lg p it v) := by
  unfold list_insert_after
  rw [hchk]
  rw [if_neg (show ¬ ¬ (true = true) by simp)]
  rw [heq]
  rw [if_neg (show ¬ (LIST_NO_ERR,
    { lg with size := lg.size + 1, first_free := lg.nexts p }, p).1 ≠ LIST_NO_ERR by simp)]
  have h1 : upd (upd lg.nexts p (lg.nexts it)) it p p = lg.nexts it := by
    rw [upd_apply, if_neg hpit, upd_same]
  have h2 : upd (upd lg.prevs p it) (lg.nexts it) p p = it := by
    rw [upd_apply, if_neg hpq, upd_same]
  simp only [spliceState, Prod.mk.injEq, true_and]
  simp only [apply_ite LState.prevs, apply_ite LState.nexts,
    apply_ite (fun f : Nat → Nat => f p), h1, h2, ite_self]
  split_ifs with hq hit0 hit0 <;> rfl

theorem rep_next_mem {m : LState} {act fr : List Nat} (h : LRep m act fr)
    {it : Nat} (hit : it = 0 ∨ it ∈ act) :
    m.nexts it = 0 ∨ m.nexts it ∈ act := by
  rcases hit with rfl | hit
  · rw [rep_nexts_zero h]
    cases act with
    | nil => simp
    | cons a t => simp
  · obtain ⟨A, B, hact⟩ := List.append_of_mem hit
    rw [(rep_split_links h hact).2.1]
    cases B with
    | nil => simp
    | cons b B2 => right; rw [hact]; simp

theorem splice_rep {lg : LState} {act : List Nat} {p : Nat} {rest : List Nat}
    (h : LRep lg act (p :: rest)) {it : Nat} (hit : it = 0 ∨ it ∈ act) (v : Nat) :
    ∃ act', act'.length = act.length + 1 ∧
      LRep (spliceState lg p it v) act' rest := by
  have hnd := rep_nodup_parts h
  have hpmem := rep_fr_bounds h (List.mem_cons_self p rest)
  have hp0 : p ≠ 0 := hpmem.1.ne'
  have hpact : p ∉ act := fun hpa => hnd.2.2.1 p hpa (List.mem_cons_self p rest)
  have hprest : p ∉ rest := (List.nodup_cons.mp hnd.2.1).1
  have hpit : p ≠ it := by
    rcases hit with rfl | hit
    · exact hp0
    · intro heq; exact hpact (heq ▸ hit)
  have hq : lg.nexts it = 0 ∨ lg.nexts it ∈ act := rep_next_mem h hit
  have hpq : p ≠ lg.nexts it := by
    rcases hq with hq | hq
    · rw [hq]; exact hp0
    · intro heq; exact hpact (heq ▸ hq)
  have hfc' : FreeChain lg lg.first_free (p :: rest) := by
    rcases h.hfc with hfc | ⟨hc1, _⟩
    · exact hfc
    · exfalso; omega
  have hff : lg.first_free = p := hfc'.1
  have hfcr : FreeChain lg (lg.nexts p) rest := hfc'.2
  -- pointwise values of the spliced arrays
  have snx : ∀ x, x ≠ it → x ≠ p → (spliceState lg p it v).nexts x = lg.nexts x := by
    intro x h1 h2
    show upd (upd lg.nexts p (lg.nexts it)) it p x = lg.nexts x
    rw [upd_apply, if_neg h1, upd_apply, if_neg h2]
  have spv : ∀ y, y ≠ lg.nexts it → y ≠ p → (spliceState lg p it v).prevs y = lg.prevs y := by
    intro y h1 h2
    show upd (upd lg.prevs p it) (lg.nexts it) p y = lg.prevs y
    rw [upd_apply, if_neg h1, upd_apply, if_neg h2]
  have snx_it : (spliceState lg p it v).nexts it = p := upd_same _ _ _
  have snx_p : (spliceState lg p it v).nexts p = lg.nexts it := by
    show upd (upd lg.nexts p (lg.nexts it)) it p p = lg.nexts it
    rw [upd_apply, if_neg hpit, upd_same]
  have spv_p : (spliceState lg p it v).prevs p = it := by
    show upd (upd lg.prevs p it) (lg.nexts it) p p = it
    rw [upd_apply, if_neg hpq, upd_same]
  have spv_q : (spliceState lg p it v).prevs (lg.nexts it) = p := upd_same _ _ _
  have hsz := h.hsize
  have hc := h.hcap
  have hmemS : ∀ x, x ∈ act ∨ x = p ∨ x ∈ rest → 0 < x ∧ x < lg.capacity := by
    intro x hx
    rcases hx with hx | rfl | hx
    · exact rep_act_bounds h hx
    · exact hpmem
    · exact rep_fr_bounds h (List.mem_cons_of_mem _ hx)
  have hcovS : ∀ x ∈ List.range lg.capacity, 0 < x → x ∈ act ∨ x = p ∨ x ∈ rest := by
    intro x hx hpos
    rcases h.hcov x hx hpos with hx' | hx'
    · exact Or.inl hx'
    · rcases List.mem_cons.mp hx' with h0 | h0
      · exact Or.inr (Or.inl h0)
      · exact Or.inr (Or.inr h0)
  have hfcS : FreeChain (spliceState lg p it v) ((spliceState lg p it v).first_free) rest := by
    have hffS : (spliceState lg p it v).first_free = lg.nexts p := rfl
    rw [hffS]
    refine fc_congr lg _ hfcr ?_
    intro x hx
    refine snx x ?_ (fun heq => hprest (heq ▸ hx))
    intro heq
    rcases hit with rfl | hit
    · exact absurd heq ((rep_fr_bounds h (List.mem_cons_of_mem _ hx)).1.ne')
    · exact hnd.2.2.1 it hit (List.mem_cons_of_mem _ (heq ▸ hx))
  have hfpS : ∀ x ∈ rest, (spliceState lg p it v).prevs x = x := by
    intro x hx
    have hxb := rep_fr_bounds h (List.mem_cons_of_mem _ hx)
    rw [spv x ?_ (fun heq => hprest (heq ▸ hx))]
    · exact h.hfp x (List.mem_cons_of_mem _ hx)
    · rcases hq with hq0 | hq0
      · rw [hq0]; exact hxb.1.ne'
      · intro heq; exact hnd.2.2.1 _ hq0 (heq ▸ List.mem_cons_of_mem p hx)
  have hncS : (spliceState lg p it v).nexts (spliceState lg p it v).capacity = 0 := by
    have hcc : (spliceState lg p it v).capacity = lg.capacity := rfl
    rw [hcc, snx lg.capacity ?_ ?_]
    · exact h.hnc
    · rcases hit with rfl | hit
      · exact (rep_cap_pos h).ne'
      · exact fun heq => absurd (rep_act_bounds h hit).2 (by omega)
    · exact fun heq => absurd hpmem.2 (by omega)
  rcases hit with rfl | hitact
  · -- insertion after the sentinel: the new slot becomes the head
    refine ⟨p :: act, by simp, ?_⟩
    have hq0 : lg.nexts 0 = act.headD 0 := rep_nexts_zero h
    refine ⟨?_, h.helem, ?_, ?_, ?_, ?_, ?_, ?_, ?_, hfpS, Or.inl hfcS, hncS⟩
    · show lg.size + 1 = (p :: act).length + 1
      simp only [List.length_cons]
      omega
    · show (p :: act).length + rest.length + 1 = lg.capacity
      simp at hc ⊢; omega
    · intro x hx
      refine hmemS x ?_
      rcases List.mem_append.mp hx with hx | hx
      · rcases List.mem_cons.mp hx with rfl | hx
        · exact Or.inr (Or.inl rfl)
        · exact Or.inl hx
      · exact Or.inr (Or.inr hx)
    · have hperm : List.Perm (0 :: (act ++ p :: rest)) (0 :: ((p :: act) ++ rest)) := by
        refine List.Perm.cons 0 ?_
        have he : (p :: act) ++ rest = p :: (act ++ rest) := by simp
        rw [he]
        exact List.perm_middle
      exact hperm.nodup h.hnd
    · intro x hx hpos
      rcases hcovS x hx hpos with h0 | h0 | h0
      · exact Or.inl (List.mem_cons_of_mem _ h0)
      · exact Or.inl (h0 ▸ List.mem_cons_self _ _)
      · exact Or.inr h0
    · -- the active chain 0 → p → act → 0
      refine ⟨snx_it, spv_p, ?_⟩
      cases act with
      | nil =>
        obtain ⟨hn0, hp0'⟩ := h.hth
        have hsp := spv_q
        rw [hn0] at hsp
        exact ⟨by rw [snx_p, hn0], hsp⟩
      | cons a t =>
        obtain ⟨hn0, hpa, hth'⟩ := h.hth
        have ha := rep_act_bounds h (List.mem_cons_self a t)
        have hsp := spv_q
        rw [hn0] at hsp
        refine ⟨by rw [snx_p, hn0], hsp, ?_⟩
        refine tf_congr lg _ hth' ?_ ?_
        · intro x hx
          have hxa : x ∈ a :: t := by
            rcases hx with rfl | hx
            · exact List.mem_cons_self _ t
            · exact List.mem_cons_of_mem _ hx
          refine snx x ((rep_act_bounds h hxa).1.ne') (fun heq => hpact (heq ▸ hxa))
        · intro y hy
          rcases hy with hy | rfl
          · have hya : y ∈ a :: t := List.mem_cons_of_mem _ hy
            refine spv y ?_ (fun heq => hpact (heq ▸ hya))
            rw [hq0]
            simp only [List.headD_cons]
            intro heq
            have hconsnd : (a :: t).Nodup := hnd.1
            rw [List.nodup_cons] at hconsnd
            exact hconsnd.1 (heq ▸ hy)
          · refine spv 0 ?_ (Ne.symm hp0)
            rw [hq0]; simp only [List.headD_cons]
            exact Ne.symm ha.1.ne'
    · -- head
      show (if (0 : Nat) = 0 then p else lg.head) = (p :: act).headD 0
      simp
    · -- tail
      show (if lg.nexts 0 = 0 then p else lg.tail) = lastD (p :: act) 0
      rw [hq0, h.htl]
      cases act with
      | nil => simp
      | cons a t =>
        rw [if_neg (by simpa using (rep_act_bounds h (List.mem_cons_self a t)).1.ne')]
        simp
  · -- insertion after an active slot
    obtain ⟨A, B, hact⟩ := List.append_of_mem hitact
    have hit0 : it ≠ 0 := by
      intro heq; exact hnd.2.2.2.1 (heq ▸ hitact)
    have hlinks := rep_split_links h hact
    have hqB : lg.nexts it = B.headD 0 := hlinks.2.1
    have hndact := hnd.1
    have hitA : it ∉ A ∧ it ∉ B ∧ (A ++ B).Nodup := by
      rw [hact] at hndact
      have := List.nodup_middle.mp hndact
      rw [List.nodup_cons] at this
      refine ⟨fun hx => this.1 (List.mem_append.mpr (Or.inl hx)),
        fun hx => this.1 (List.mem_append.mpr (Or.inr hx)), this.2⟩
    refine ⟨A ++ it :: p :: B,
      by rw [hact]; simp only [List.length_append, List.length_cons]; omega, ?_⟩
    have hmemact : ∀ x, x ∈ A ∨ x = it ∨ x ∈ B → x ∈ act := by
      intro x hx
      rw [hact]
      rcases hx with hx | rfl | hx
      · exact List.mem_append.mpr (Or.inl hx)
      · exact List.mem_append.mpr (Or.inr (List.mem_cons_self _ _))
      · exact List.mem_append.mpr (Or.inr (List.mem_cons_of_mem _ hx))
    have hndB : B.Nodup := List.Nodup.of_append_right hitA.2.2
    have hdisjAB : ∀ x ∈ B, x ∉ A := by
      intro x hxB hxA
      exact (List.nodup_append.mp hitA.2.2).2.2 hxA hxB
    obtain ⟨hTF1, hTF2⟩ := (tf_append lg it 0 0 A B).mp (hact ▸ h.hth)
    refine ⟨?_, h.helem, ?_, ?_, ?_, ?_, ?_, ?_, ?_, hfpS, Or.inl hfcS, hncS⟩
    · show lg.size + 1 = (A ++ it :: p :: B).length + 1
      rw [hact] at hsz; simp at hsz ⊢; omega
    · show (A ++ it :: p :: B).length + rest.length + 1 = lg.capacity
      rw [hact] at hc; simp at hc ⊢; omega
    · intro x hx
      refine hmemS x ?_
      rcases List.mem_append.mp hx with hx | hx
      · rcases List.mem_append.mp hx with hx | hx
        · exact Or.inl (hmemact x (Or.inl hx))
        · rcases List.mem_cons.mp hx with rfl | hx
          · exact Or.inl (hmemact x (Or.inr (Or.inl rfl)))
          · rcases List.mem_cons.mp hx with rfl | hx
            · exact Or.inr (Or.inl rfl)
            · exact Or.inl (hmemact x (Or.inr (Or.inr hx)))
      · exact Or.inr (Or.inr hx)
    · have hsrc := h.hnd
      rw [hact] at hsrc
      have hperm : List.Perm (0 :: ((A ++ it :: B) ++ p :: rest))
          (0 :: ((A ++ it :: p :: B) ++ rest)) := by
        refine List.Perm.cons 0 ?_
        refine List.Perm.trans List.perm_middle ?_
        have he1 : (A ++ it :: p :: B) ++ rest = (A ++ [it]) ++ p :: (B ++ rest) := by
          simp
        have he2 : p :: ((A ++ it :: B) ++ rest) = p :: ((A ++ [it]) ++ (B ++ rest)) := by
          simp
        rw [he1, he2]
        exact List.perm_middle.symm
      exact hperm.nodup hsrc
    · intro x hx hpos
      rcases hcovS x hx hpos with h0 | h0 | h0
      · rw [hact] at h0
        left
        rcases List.mem_append.mp h0 with h0 | h0
        · exact List.mem_append.mpr (Or.inl h0)
        · rcases List.mem_cons.mp h0 with rfl | h0
          · exact List.mem_append.mpr (Or.inr (List.mem_cons_self _ _))
          · exact List.mem_append.mpr
              (Or.inr (List.mem_cons_of_mem _ (List.mem_cons_of_mem _ h0)))
      · exact Or.inl (List.mem_append.mpr (Or.inr (h0 ▸ List.mem_cons_of_mem _
          (List.mem_cons_self _ _))))
      · exact Or.inr h0
    · -- the active chain 0 → A → it → p → B → 0
      refine (tf_append (spliceState lg p it v) it 0 0 A (p :: B)).mpr ⟨?_, ?_⟩
      · refine tf_congr lg _ hTF1 ?_ ?_
        · intro x hx
          have hx' : x = 0 ∨ x ∈ A := hx
          refine snx x ?_ ?_
          · rcases hx' with rfl | hx'
            · exact Ne.symm hit0
            · intro heq; exact hitA.1 (heq ▸ hx')
          · rcases hx' with rfl | hx'
            · exact Ne.symm hp0
            · intro heq; exact hpact (heq ▸ hmemact x (Or.inl hx'))
        · intro y hy
          refine spv y ?_ ?_
          · rw [hqB]
            cases B with
            | nil =>
              simp only [List.headD_nil]
              rcases hy with hy | rfl
              · exact (rep_act_bounds h (hmemact y (Or.inl hy))).1.ne'
              · exact hit0
            | cons b B2 =>
              simp only [List.headD_cons]
              rcases hy with hy | rfl
              · intro heq; exact hdisjAB b (List.mem_cons_self b B2) (heq ▸ hy)
              · intro heq; exact hitA.2.1 (heq ▸ List.mem_cons_self b B2)
          · rcases hy with hy | rfl
            · intro heq; exact hpact (heq ▸ hmemact y (Or.inl hy))
            · exact Ne.symm hpit
      · refine ⟨snx_it, spv_p, ?_⟩
        cases B with
        | nil =>
          have hsp := spv_q
          rw [hTF2.1] at hsp
          exact ⟨by rw [snx_p, hTF2.1], hsp⟩
        | cons b B2 =>
          obtain ⟨hnb, hpb, hTF3⟩ := hTF2
          have hbact : b ∈ act := hmemact b (Or.inr (Or.inr (List.mem_cons_self b B2)))
          have hsp := spv_q
          rw [hnb] at hsp
          refine ⟨by rw [snx_p, hnb], hsp, ?_⟩
          refine tf_congr lg _ hTF3 ?_ ?_
          · intro x hx
            have hxB : x ∈ b :: B2 := by
              rcases hx with rfl | hx
              · exact List.mem_cons_self _ B2
              · exact List.mem_cons_of_mem _ hx
            refine snx x (fun heq => hitA.2.1 (heq ▸ hxB))
              (fun heq => hpact (heq ▸ hmemact x (Or.inr (Or.inr hxB))))
          · intro y hy
            refine spv y ?_ ?_
            · rw [hqB]
              simp only [List.headD_cons]
              rcases hy with hy | rfl
              · intro heq
                rw [List.nodup_cons] at hndB
                exact hndB.1 (heq ▸ hy)
              · exact Ne.symm (rep_act_bounds h hbact).1.ne'
            · rcases hy with hy | rfl
              · exact fun heq => hpact (heq ▸ hmemact y
                  (Or.inr (Or.inr (List.mem_cons_of_mem _ hy))))
              · exact Ne.symm hp0
    · -- head
      show (if it = 0 then p else lg.head) = (A ++ it :: p :: B).headD 0
      rw [if_neg hit0, h.hhd, hact, headD_append_cons, headD_append_cons]
    · -- tail
      show (if lg.nexts it = 0 then p else lg.tail) = lastD (A ++ it :: p :: B) 0
      rw [hqB, lastD_append_cons, lastD_cons]
      cases B with
      | nil => simp
      | cons b B2 =>
        have hbact : b ∈ act := hmemact b (Or.inr (Or.inr (List.mem_cons_self b B2)))
        rw [if_neg (by simpa using (rep_act_bounds h hbact).1.ne'), h.htl, hact,
          lastD_append_cons]
        simp

theorem insert_after_ok {l : LState} {act fr : List Nat} (h : LRep l act fr)
    {it : Nat} (hit : it = 0 ∨ it ∈ act) (v : Nat) :
    (list_insert_after l it v).1 = LIST_NO_ERR ∧
    (∃ act' fr', act'.length = act.length + 1 ∧
      LRep (list_insert_after l it v).2 act' fr') ∧
    (list_insert_after l it v).2.normalized =
      (if l.nexts it = 0 then l.normalized else false) := by
  obtain ⟨lg, p, rest, hrepg, hnormg, hheadg, htailg, hsizeg, hpresg, heqg⟩ := rff_spec h
  have hchk : list_check_iterator l it = true := (rep_check_iff h it).mpr hit
  have hnd := rep_nodup_parts hrepg
  have hpb := rep_fr_bounds hrepg (List.mem_cons_self p rest)
  have hpit : p ≠ it := by
    rcases hit with rfl | hit
    · exact hpb.1.ne'
    · exact fun heq => hnd.2.2.1 it hit (heq ▸ List.mem_cons_self p rest)
  have hpq : p ≠ lg.nexts it := by
    rcases rep_next_mem hrepg hit with h0 | h0
    · rw [h0]; exact hpb.1.ne'
    · exact fun heq => hnd.2.2.1 _ h0 (heq ▸ List.mem_cons_self p rest)
  rw [insert_after_eq it v hchk heqg hpit hpq]
  obtain ⟨act', hlen, hrep'⟩ := splice_rep hrepg hit v
  refine ⟨rfl, ⟨act', rest, hlen, hrep'⟩, ?_⟩
  show (if lg.nexts it = 0 then lg.normalized else false) =
    (if l.nexts it = 0 then l.normalized else false)
  rw [(hpresg it hit).1, hnormg]

/-- The state after a successful `list_erase` of an active slot `s`. -/
def eraseState (l : LState) (s : Nat) : LState :=
  { data := l.data
    nexts := upd (upd l.nexts (l.prevs s) (l.nexts s)) s l.first_free
    prevs := upd (upd l.prevs (l.nexts s) (l.prevs s)) s s
    elem_size := l.elem_size
    size := l.size - 1
    capacity := l.capacity
    first_free := s
    head := if s = l.head then l.nexts s else l.head
    tail := if s = l.tail then l.prevs s else l.tail
    normalized := if s = l.tail then l.normalized else false }

theorem eraseState_nexts (l : LState) (s : Nat) {x : Nat}
    (hx1 : x ≠ l.prevs s) (hx2 : x ≠ s) : (eraseState l s).nexts x = l.nexts x := by
  show upd (upd l.nexts (l.prevs s) (l.nexts s)) s l.first_free x = l.nexts x
  rw [upd_apply, if_neg hx2, upd_apply, if_neg hx1]

theorem eraseState_nexts_pv (l : LState) (s : Nat) (h : l.prevs s ≠ s) :
    (eraseState l s).nexts (l.prevs s) = l.nexts s := by
  show upd (upd l.nexts (l.prevs s) (l.nexts s)) s l.first_free (l.prevs s) = l.nexts s
  rw [upd_apply, if_neg h, upd_same]

theorem eraseState_nexts_s (l : LState) (s : Nat) :
    (eraseState l s).nexts s = l.first_free := upd_same _ _ _

theorem eraseState_prevs (l : LState) (s : Nat) {y : Nat}
    (hy1 : y ≠ l.nexts s) (hy2 : y ≠ s) : (eraseState l s).prevs y = l.prevs y := by
  show upd (upd l.prevs (l.nexts s) (l.prevs s)) s s y = l.prevs y
  rw [upd_apply, if_neg hy2, upd_apply, if_neg hy1]

theorem eraseState_prevs_nx (l : LState) (s : Nat) (h : l.nexts s ≠ s) :
    (eraseState l s).prevs (l.nexts s) = l.prevs s := by
  show upd (upd l.prevs (l.nexts s) (l.prevs s)) s s (l.nexts s) = l.prevs s
  rw [upd_apply, if_neg h, upd_same]

theorem eraseState_prevs_s (l : LState) (s : Nat) :
    (eraseState l s).prevs s = s := upd_same _ _ _

set_option maxHeartbeats 1000000 in
theorem erase_eq {l : LState} (s : Nat)
    (hchk : list_check_iterator l s = true) (hs0 : s ≠ 0) :
    list_erase l s = (LIST_NO_ERR, eraseState l s,
      if l.nexts s ≠ 0 then l.nexts s else l.prevs s) := by
  unfold list_erase
  rw [hchk]
  rw [if_neg (show ¬ ¬ (true = true) by simp)]
  rw [if_neg hs0]
  simp only [eraseState, Prod.mk.injEq, true_and]
  simp only [apply_ite LState.head, apply_ite LState.tail, apply_ite LState.normalized,
    apply_ite LState.size, apply_ite LState.data, apply_ite LState.nexts,
    apply_ite LState.prevs, apply_ite LState.elem_size, apply_ite LState.capacity,
    apply_ite LState.first_free, ite_self]
  exact ⟨trivial, trivial⟩

theorem tf_erase (l : LState) (s : Nat) (hspos : 0 < s) (B : List Nat)
    (hTFB : ThreadsFrom l s B 0) :
    ∀ (A : List Nat) (a : Nat),
      ThreadsFrom l a (A ++ s :: B) 0 →
      (a :: (A ++ s :: B)).Nodup →
      (∀ x ∈ A ++ s :: B, 0 < x) →
      ThreadsFrom (eraseState l s) a (A ++ B) 0 := by
  intro A
  induction A with
  | nil =>
    intro a hTF hnd hpos
    obtain ⟨hna, hps, _⟩ := hTF
    rw [List.nil_append]
    have hnd1 := List.nodup_cons.mp hnd
    have hasne : a ≠ s := by
      intro heq; exact hnd1.1 (by rw [heq]; simp)
    cases B with
    | nil =>
      obtain ⟨hns0, hp0⟩ := hTFB
      refine ⟨?_, ?_⟩
      · rw [show a = l.prevs s from hps.symm,
          eraseState_nexts_pv l s (by rw [hps]; exact hasne), hns0]
      · have hkey := eraseState_prevs_nx l s (by rw [hns0]; exact hspos.ne)
        rw [hns0, hps] at hkey
        exact hkey
    | cons b B2 =>
      obtain ⟨hnsb, hpb, hTFB2⟩ := hTFB
      have hbpos : 0 < b := hpos b (by simp)
      have hndtail : (s :: b :: B2).Nodup := by
        simpa using hnd1.2
      have hndt1 := List.nodup_cons.mp hndtail
      have hndb := List.nodup_cons.mp hndt1.2
      refine ⟨?_, ?_, ?_⟩
      · rw [show a = l.prevs s from hps.symm,
          eraseState_nexts_pv l s (by rw [hps]; exact hasne), hnsb]
      · have hkey := eraseState_prevs_nx l s (by
          rw [hnsb]
          intro heq
          exact hndt1.1 (by rw [heq]; simp))
        rw [hnsb, hps] at hkey
        exact hkey
      · refine tf_congr l _ hTFB2 ?_ ?_
        · intro x hx
          have hxm : x ∈ b :: B2 := by
            rcases hx with rfl | hx
            · exact List.mem_cons_self _ B2
            · exact List.mem_cons_of_mem _ hx
          refine eraseState_nexts l s ?_ ?_
          · rw [hps]
            intro heq
            exact hnd1.1 (by rw [← heq]; exact List.mem_cons_of_mem s hxm)
          · intro heq
            exact hndt1.1 (by rw [← heq]; exact hxm)
        · intro y hy
          refine eraseState_prevs l s ?_ ?_
          · rw [hnsb]
            rcases hy with hy | rfl
            · intro heq
              exact hndb.1 (by rw [← heq]; exact hy)
            · exact hbpos.ne
          · rcases hy with hy | rfl
            · intro heq
              exact hndt1.1 (by rw [← heq]; exact List.mem_cons_of_mem b hy)
            · exact hspos.ne
  | cons x A' ih =>
    intro a hTF hnd hpos
    obtain ⟨hnax, hpxa, hTF'⟩ := hTF
    have hpv : l.prevs s = lastD A' x := by
      have hsplit := (tf_append l s 0 x A' B).mp hTF'
      exact tf_last l hsplit.1
    have hxpos : 0 < x := hpos x (by simp)
    have hnd1 := List.nodup_cons.mp hnd
    have hnd2 := List.nodup_cons.mp hnd1.2
    refine ⟨?_, ?_, ?_⟩
    · rw [eraseState_nexts l s ?_ ?_]
      · exact hnax
      · rw [hpv]
        intro heq
        rcases lastD_mem A' x with h0 | h0
        · rw [h0] at heq
          exact hnd1.1 (by rw [heq]; simp)
        · refine hnd1.1 (by rw [heq]; exact List.mem_cons_of_mem x (List.mem_append.mpr (Or.inl h0)))
      · intro heq
        refine hnd1.1 (by rw [heq]; exact List.mem_cons_of_mem x (List.mem_append.mpr (Or.inr (List.mem_cons_self s B))))
    · rw [eraseState_prevs l s ?_ ?_]
      · exact hpxa
      · rw [tf_first l hTFB]
        cases B with
        | nil => simp only [List.headD_nil]; exact hxpos.ne'
        | cons b B2 =>
          simp only [List.headD_cons]
          intro heq
          refine hnd2.1 (by rw [heq]; exact List.mem_append.mpr (Or.inr (List.mem_cons_of_mem s (List.mem_cons_self b B2))))
      · intro heq
        refine hnd2.1 (by rw [heq]; exact List.mem_append.mpr (Or.inr (List.mem_cons_self s B)))
    · exact ih x hTF' hnd1.2 (fun z hz => hpos z (List.mem_cons_of_mem x hz))

theorem erase_rep {l : LState} {act fr : List Nat} (h : LRep l act fr)
    {s : Nat} (hs : s ∈ act) {A B : List Nat} (hact : act = A ++ s :: B) :
    LRep (eraseState l s) (A ++ B) (s :: fr) := by
  have hsb := rep_act_bounds h hs
  have hspos : 0 < s := hsb.1
  have hnd := rep_nodup_parts h
  have hndact : (A ++ s :: B).Nodup := hact ▸ hnd.1
  have hsAB : s ∉ A ∧ s ∉ B ∧ (A ++ B).Nodup := by
    have hm := List.nodup_middle.mp hndact
    rw [List.nodup_cons] at hm
    exact ⟨fun hx => hm.1 (List.mem_append.mpr (Or.inl hx)),
      fun hx => hm.1 (List.mem_append.mpr (Or.inr hx)), hm.2⟩
  have hmemact : ∀ x, x ∈ A ∨ x ∈ B → x ∈ act := by
    intro x hx
    rw [hact]
    rcases hx with hx | hx
    · exact List.mem_append.mpr (Or.inl hx)
    · exact List.mem_append.mpr (Or.inr (List.mem_cons_of_mem _ hx))
  have hlinks := rep_split_links h hact
  have hsz := h.hsize
  have hc := h.hcap
  have hpv_mem : l.prevs s = 0 ∨ l.prevs s ∈ A := by
    rw [hlinks.1]
    rcases lastD_mem A 0 with h0 | h0
    · exact Or.inl h0
    · exact Or.inr h0
  have hnx_mem : l.nexts s = 0 ∨ l.nexts s ∈ B := by
    rw [hlinks.2.1]
    cases B with
    | nil => simp
    | cons b B2 => right; simp
  have hfcl : FreeChain l l.first_free fr := by
    rcases h.hfc with hfc | ⟨hc1, _⟩
    · exact hfc
    · exfalso; omega
  refine ⟨?_, h.helem, ?_, ?_, ?_, ?_, ?_, ?_, ?_, ?_, ?_, ?_⟩
  · show l.size - 1 = (A ++ B).length + 1
    rw [hact] at hsz; simp at hsz ⊢; omega
  · show (A ++ B).length + (s :: fr).length + 1 = l.capacity
    rw [hact] at hc; simp at hc ⊢; omega
  · intro x hx
    rcases List.mem_append.mp hx with hx | hx
    · rcases List.mem_append.mp hx with hx | hx
      · exact rep_act_bounds h (hmemact x (Or.inl hx))
      · exact rep_act_bounds h (hmemact x (Or.inr hx))
    · rcases List.mem_cons.mp hx with rfl | hx
      · exact hsb
      · exact rep_fr_bounds h hx
  · have hsrc := h.hnd
    rw [hact] at hsrc
    have hperm : List.Perm (0 :: ((A ++ s :: B) ++ fr))
        (0 :: ((A ++ B) ++ s :: fr)) := by
      refine List.Perm.cons 0 ?_
      have he1 : (A ++ s :: B) ++ fr = A ++ s :: (B ++ fr) := by simp
      rw [he1]
      refine List.Perm.trans List.perm_middle ?_
      have he2 : (A ++ B) ++ s :: fr = ((A ++ B) ++ [s]) ++ fr := by simp
      have he3 : s :: (A ++ (B ++ fr)) = s :: ((A ++ B) ++ fr) := by simp
      rw [he3]
      exact List.perm_middle.symm
    exact hperm.nodup hsrc
  · intro x hx hpos
    rcases h.hcov x hx hpos with h0 | h0
    · rw [hact] at h0
      rcases List.mem_append.mp h0 with h0 | h0
      · exact Or.inl (List.mem_append.mpr (Or.inl h0))
      · rcases List.mem_cons.mp h0 with rfl | h0
        · exact Or.inr (List.mem_cons_self _ _)
        · exact Or.inl (List.mem_append.mpr (Or.inr h0))
    · exact Or.inr (List.mem_cons_of_mem _ h0)
  · -- active chain with s removed
    have hthsplit := (tf_append l s 0 0 A B).mp (hact ▸ h.hth)
    refine tf_erase l s hspos B hthsplit.2 A 0 (hact ▸ h.hth) ?_ ?_
    · rw [List.nodup_cons]
      refine ⟨?_, hndact⟩
      intro h0
      have := h.hmem 0 (List.mem_append.mpr (Or.inl (hact ▸ h0)))
      omega
    · intro x hx
      exact (rep_act_bounds h (hact ▸ hx)).1
  · -- head
    show (if s = l.head then l.nexts s else l.head) = (A ++ B).headD 0
    rw [h.hhd, hact, headD_append_cons]
    cases A with
    | nil =>
      simp only [List.headD_nil, if_true]
      rw [hlinks.2.1]
      simp
    | cons a0 A2 =>
      have ha0 : a0 ∈ act := hmemact a0 (Or.inl (List.mem_cons_self _ _))
      rw [if_neg ?_]
      · simp
      · intro heq
        exact hsAB.1 (by rw [heq]; simp)
  · -- tail
    show (if s = l.tail then l.prevs s else l.tail) = lastD (A ++ B) 0
    rw [h.htl, hact, lastD_append_cons]
    cases B with
    | nil =>
      simp only [lastD_nil, if_true]
      rw [hlinks.1]
      simp
    | cons b B2 =>
      have hlmem : lastD (b :: B2) s ∈ b :: B2 := by
        rw [lastD_cons]
        rcases lastD_mem B2 b with h0 | h0
        · rw [h0]; exact List.mem_cons_self _ _
        · exact List.mem_cons_of_mem _ h0
      rw [if_neg ?_]
      · rw [lastD_append_cons, lastD_cons]
      · intro heq
        exact hsAB.2.1 (by rw [heq]; exact hlmem)
  · -- free-slot marking
    intro x hx
    rcases List.mem_cons.mp hx with rfl | hx
    · exact eraseState_prevs_s l x
    · have hxb := rep_fr_bounds h hx
      rw [eraseState_prevs l s ?_ ?_]
      · exact h.hfp x hx
      · rcases hnx_mem with h0 | h0
        · rw [h0]; exact hxb.1.ne'
        · intro heq
          exact hnd.2.2.1 _ (hmemact _ (Or.inr h0)) (by rw [← heq]; exact hx)
      · intro heq
        exact hnd.2.2.1 s hs (by rw [← heq]; exact hx)
  · -- free chain rooted at the erased slot
    left
    refine ⟨rfl, ?_⟩
    rw [eraseState_nexts_s]
    refine fc_congr l _ hfcl ?_
    intro x hx
    refine eraseState_nexts l s ?_ ?_
    · rcases hpv_mem with h0 | h0
      · rw [h0]; exact (rep_fr_bounds h hx).1.ne'
      · intro heq
        exact hnd.2.2.1 _ (hmemact _ (Or.inl h0)) (by rw [← heq]; exact hx)
    · intro heq
      exact hnd.2.2.1 s hs (by rw [← heq]; exact hx)
  · -- capacity sentinel link
    show (eraseState l s).nexts l.capacity = 0
    rw [eraseState_nexts l s ?_ ?_]
    · exact h.hnc
    · rcases hpv_mem with h0 | h0
      · rw [h0]; exact (rep_cap_pos h).ne'
      · have := rep_act_bounds h (hmemact _ (Or.inl h0))
        omega
    · omega

theorem erase_ok {l : LState} {act fr : List Nat} (h : LRep l act fr)
    {s : Nat} (hs : s ∈ act) :
    ∃ A B, act = A ++ s :: B ∧
      list_erase l s = (LIST_NO_ERR, eraseState l s,
        if l.nexts s ≠ 0 then l.nexts s else l.prevs s) ∧
      LRep (eraseState l s) (A ++ B) (s :: fr) := by
  obtain ⟨A, B, hact⟩ := List.append_of_mem hs
  exact ⟨A, B, hact, erase_eq s ((rep_check_iff h s).mpr (Or.inr hs))
    (rep_act_bounds h hs).1.ne', erase_rep h hs hact⟩

theorem insert_after_any_rep {l : LState} {act fr : List Nat} (h : LRep l act fr)
    (it v : Nat) : ∃ act' fr', LRep (list_insert_after l it v).2 act' fr' := by
  by_cases hchk : list_check_iterator l it = true
  · obtain ⟨_, ⟨act', fr', _, hrep⟩, _⟩ := insert_after_ok h ((rep_check_iff h it).mp hchk) v
    exact ⟨act', fr', hrep⟩
  · unfold list_insert_after
    rw [if_pos (by simpa using hchk)]
    exact ⟨act, fr, h⟩

theorem erase_any_rep {l : LState} {act fr : List Nat} (h : LRep l act fr)
    (it : Nat) : ∃ act' fr', LRep (list_erase l it).2.1 act' fr' := by
  by_cases hchk : list_check_iterator l it = true
  · rcases (rep_check_iff h it).mp hchk with rfl | hmem
    · unfold list_erase
      rw [hchk, if_neg (show ¬ ¬ (true = true) by simp), if_pos rfl]
      exact ⟨act, fr, h⟩
    · obtain ⟨A, B, _, heq, hrep⟩ := erase_ok h hmem
      rw [heq]
      exact ⟨A ++ B, it :: fr, hrep⟩
  · unfold list_erase
    rw [if_pos (by simpa using hchk)]
    exact ⟨act, fr, h⟩

theorem op_rep {l : LState} {act fr : List Nat} (h : LRep l act fr) (op : LOp) :
    ∃ act' fr', LRep (applyOp l op) act' fr' := by
  cases op with
  | insertAfter it v => exact insert_after_any_rep h it v
  | insertBefore it v => exact insert_after_any_rep h (l.prevs it) v
  | insertToHead v => exact insert_after_any_rep h (l.prevs l.head) v
  | insertToTail v => exact insert_after_any_rep h l.tail v
  | eraseAt it => exact erase_any_rep h it
  | eraseByValue v => exact erase_any_rep h (list_find l v)
  | eraseByIndex i => exact erase_any_rep h (list_element_at l i)

theorem runOps_rep {l : LState} {act fr : List Nat} (h : LRep l act fr)
    (ops : List LOp) : ∃ act' fr', LRep (runOps l ops) act' fr' := by
  induction ops generalizing l act fr with
  | nil => exact ⟨act, fr, h⟩
  | cons op ops ih =>
    obtain ⟨act1, fr1, h1⟩ := op_rep h op
    exact ih h1

/-!
## Claim theorems
-/

/-- C1: for every list created by `list_create` and every sequence of
insert (`insert_after`/`insert_before`/`insert_to_head`/`insert_to_tail`)
and erase (`erase`/`erase_by_value`/`erase_by_index`) operations applied to
it, `list_verify` returns `LIST_NO_ERR` after each operation (every prefix
of the sequence is itself such a sequence, so quantifying over `ops` covers
every intermediate state). -/
theorem c1_invariants_preserved (sc es : Nat) (l0 : LState) (ops : List LOp)
    (hcreate : list_create_func_ sc es = some l0) :
    list_verify (runOps l0 ops) = LIST_NO_ERR := by
  obtain ⟨act', fr', hrep⟩ := runOps_rep (rep_create hcreate) ops
  exact rep_verify hrep

/-- Witness for C1 at a concrete instance: a list of element size 1 and
user capacity 2, three inserts (one of which triggers growth when run with
capacity 0 lists; here it exercises head, tail and erase paths). -/
theorem c1_invariants_preserved_witness :
    list_create_func_ 2 1 = some ((list_create_func_ 2 1).getD LState.default0) ∧
    list_verify (runOps ((list_create_func_ 2 1).getD LState.default0)
      [LOp.insertToTail 5, LOp.insertToHead 7, LOp.insertAfter 1 9, LOp.eraseAt 1]) =
      LIST_NO_ERR :=
  ⟨rfl, c1_invariants_preserved 2 1 ((list_create_func_ 2 1).getD LState.default0)
    [LOp.insertToTail 5, LOp.insertToHead 7, LOp.insertAfter 1 9, LOp.eraseAt 1] rfl⟩

/-- C10: the invariant checker reports success on a NULL list handle:
`list_verify(NULL)` returns `LIST_NO_ERR`, so a destroyed or never-created
list is indistinguishable from a valid one through `verify`. -/
theorem c10_verify_null : list_verify_opt none = LIST_NO_ERR := rfl

theorem rep_nexts_ne_self {l : LState} {act fr : List Nat} (h : LRep l act fr)
    {s : Nat} (hs : s ∈ act) : l.nexts s ≠ s := by
  obtain ⟨A, B, hact⟩ := List.append_of_mem hs
  rw [(rep_split_links h hact).2.1]
  have hnd := (rep_nodup_parts h).1
  rw [hact] at hnd
  have hm := List.nodup_middle.mp hnd
  rw [List.nodup_cons] at hm
  cases B with
  | nil => simpa using ((rep_act_bounds h hs).1.ne)
  | cons b B2 =>
    simp only [List.headD_cons]
    intro heq
    exact hm.1 (by rw [← heq]; exact List.mem_append.mpr (Or.inr (List.mem_cons_self b B2)))

theorem rep_tail_mem {l : LState} {act fr : List Nat} (h : LRep l act fr) :
    l.tail = 0 ∨ l.tail ∈ act := by
  rw [h.htl]
  rcases lastD_mem act 0 with h0 | h0
  · exact Or.inl h0
  · exact Or.inr h0

theorem rep_nexts_eq_zero_iff {l : LState} {act fr : List Nat} (h : LRep l act fr)
    {it : Nat} (hit : it = 0 ∨ it ∈ act) : (l.nexts it = 0 ↔ it = l.tail) := by
  rcases hit with rfl | hit
  · rw [rep_nexts_zero h, h.htl]
    cases act with
    | nil => simp
    | cons a t =>
      have hapos := (rep_act_bounds h (List.mem_cons_self a t)).1
      have hlmem : lastD (a :: t) 0 ∈ a :: t := by
        rw [lastD_cons]
        rcases lastD_mem t a with h0 | h0
        · rw [h0]; exact List.mem_cons_self _ _
        · exact List.mem_cons_of_mem _ h0
      have hlpos := (rep_act_bounds h hlmem).1
      simp only [List.headD_cons]
      constructor
      · intro h0; omega
      · intro h0; omega
  · obtain ⟨A, B, hact⟩ := List.append_of_mem hit
    have hnd := (rep_nodup_parts h).1
    rw [hact] at hnd
    have hm := List.nodup_middle.mp hnd
    rw [List.nodup_cons] at hm
    rw [(rep_split_links h hact).2.1, h.htl, hact, lastD_append_cons]
    cases B with
    | nil => simp
    | cons b B2 =>
      have hbmem : b ∈ act := by
        rw [hact]; exact List.mem_append.mpr (Or.inr (List.mem_cons_of_mem _
          (List.mem_cons_self b B2)))
      have hbpos := (rep_act_bounds h hbmem).1
      have hlmem : lastD (b :: B2) it ∈ b :: B2 := by
        rw [lastD_cons]
        rcases lastD_mem B2 b with h0 | h0
        · rw [h0]; exact List.mem_cons_self _ _
        · exact List.mem_cons_of_mem _ h0
      simp only [List.headD_cons]
      constructor
      · intro h0; omega
      · intro h0
        exfalso
        refine hm.1 (by rw [h0]; exact List.mem_append.mpr (Or.inr hlmem))

/-- C6: a successful insertion after `it` preserves `normalized` exactly
when `it` is the tail (so `insert_to_tail` always preserves it), and
otherwise sets it to `false`; a successful erasure of slot `s` preserves
`normalized` exactly when `s` is the tail and otherwise sets it to
`false`. -/
theorem c6_normalized_flag {l : LState} {act fr : List Nat} (h : LRep l act fr) :
    (∀ it v, (it = 0 ∨ it ∈ act) →
      (list_insert_after l it v).2.normalized =
        (if it = l.tail then l.normalized else false)) ∧
    (∀ s ∈ act, (list_erase l s).2.1.normalized =
        (if s = l.tail then l.normalized else false)) ∧
    (∀ v, (list_insert_to_tail l v).2.normalized = l.normalized) := by
  have hins : ∀ it v, (it = 0 ∨ it ∈ act) →
      (list_insert_after l it v).2.normalized =
        (if it = l.tail then l.normalized else false) := by
    intro it v hit
    rw [(insert_after_ok h hit v).2.2]
    exact if_congr (rep_nexts_eq_zero_iff h hit) rfl rfl
  refine ⟨hins, ?_, ?_⟩
  · intro s hs
    obtain ⟨A, B, _, heq, _⟩ := erase_ok h hs
    rw [heq]
    rfl
  · intro v
    have := hins l.tail v (rep_tail_mem h)
    rw [if_pos rfl] at this
    exact this

/-- Witness for C6 on a concrete two-element list. -/
theorem c6_normalized_flag_witness :
    LRep (runOps ((list_create_func_ 3 1).getD LState.default0)
      [LOp.insertToTail 5, LOp.insertToTail 6]) [1, 2] [3] ∧
    (list_insert_after (runOps ((list_create_func_ 3 1).getD LState.default0)
      [LOp.insertToTail 5, LOp.insertToTail 6]) 1 9).2.normalized =
      (if 1 = (runOps ((list_create_func_ 3 1).getD LState.default0)
        [LOp.insertToTail 5, LOp.insertToTail 6]).tail
       then (runOps ((list_create_func_ 3 1).getD LState.default0)
        [LOp.insertToTail 5, LOp.insertToTail 6]).normalized else false) :=
  ⟨by decide, (@c6_normalized_flag (runOps ((list_create_func_ 3 1).getD LState.default0)
    [LOp.insertToTail 5, LOp.insertToTail 6]) [1, 2] [3] (by decide)).1 1 9 (by decide)⟩

theorem check_iterator_false {l : LState} {it : Nat} (h0 : it ≠ 0)
    (h1 : l.capacity ≤ it ∨ l.prevs it = it) : list_check_iterator l it = false := by
  simp only [list_check_iterator, decide_eq_false_iff_not]
  rintro (h | ⟨hlt, hne⟩)
  · exact h0 h
  · rcases h1 with h1 | h1
    · omega
    · exact hne h1

/-- C7: on a valid list, erasing the sentinel (`it = 0`) is a no-op that
returns success; erasing an active slot `s` returns success, yields the
state `eraseState l s` (which unlinks `s` from the active chain, prepends
it to the free chain at `first_free`, decrements the size, and updates
head/tail when `s` was the head/tail), keeps the representation invariant
with `s` moved to the front of the free list, and rewrites the iterator to
the next element when one exists, else to the previous element. -/
theorem c7_erase_semantics {l : LState} {act fr : List Nat} (h : LRep l act fr) :
    list_erase l 0 = (LIST_NO_ERR, l, 0) ∧
    ∀ s ∈ act, ∃ A B, act = A ++ s :: B ∧
      list_erase l s = (LIST_NO_ERR, eraseState l s,
        if l.nexts s ≠ 0 then l.nexts s else l.prevs s) ∧
      LRep (eraseState l s) (A ++ B) (s :: fr) ∧
      (eraseState l s).first_free = s ∧
      (eraseState l s).nexts s = l.first_free ∧
      (eraseState l s).size = l.size - 1 ∧
      (eraseState l s).head = (if s = l.head then l.nexts s else l.head) ∧
      (eraseState l s).tail = (if s = l.tail then l.prevs s else l.tail) := by
  have hc : list_check_iterator l 0 = true := (rep_check_iff h 0).mpr (Or.inl rfl)
  constructor
  · simp [list_erase, hc]
  · intro s hs
    obtain ⟨A, B, hact, heq, hrep⟩ := erase_ok h hs
    exact ⟨A, B, hact, heq, hrep, rfl, eraseState_nexts_s l s, rfl, rfl, rfl⟩

/-- Witness for C7: erasing the sentinel of a concrete two-element list. -/
theorem c7_erase_semantics_witness :
    list_erase (runOps ((list_create_func_ 3 1).getD LState.default0)
      [LOp.insertToTail 5, LOp.insertToTail 6]) 0 =
    (LIST_NO_ERR, runOps ((list_create_func_ 3 1).getD LState.default0)
      [LOp.insertToTail 5, LOp.insertToTail 6], 0) :=
  (@c7_erase_semantics (runOps ((list_create_func_ 3 1).getD LState.default0)
    [LOp.insertToTail 5, LOp.insertToTail 6]) [1, 2] [3] (by decide)).1

/-- C3 (amended): on a valid list, `list_get` returns the stored payload at
every active slot and `none` at every out-of-range (`it ≥ capacity`) or
stale (`prevs[it] = it`, `it ≠ 0`) iterator — but at the sentinel `it = 0`
it returns the sentinel slot's payload, not `none` as the spec claims. -/
theorem c3_get_validation {l : LState} {act fr : List Nat} (h : LRep l act fr) :
    (∀ it ∈ act, list_get l it = some (l.data it)) ∧
    (∀ it, l.capacity ≤ it → list_get l it = none) ∧
    (∀ it, it ≠ 0 → l.prevs it = it → list_get l it = none) ∧
    list_get l 0 = some (l.data 0) := by
  refine ⟨?_, ?_, ?_, ?_⟩
  · intro it hit
    simp [list_get, (rep_check_iff h it).mpr (Or.inr hit)]
  · intro it hge
    have h0 : it ≠ 0 := by have := rep_cap_pos h; omega
    simp [list_get, check_iterator_false h0 (Or.inl hge)]
  · intro it h0 hst
    simp [list_get, check_iterator_false h0 (Or.inr hst)]
  · simp [list_get, list_check_iterator]

/-- Witness for C3 on a concrete one-element list. -/
theorem c3_get_validation_witness :
    list_get (runOps ((list_create_func_ 2 1).getD LState.default0)
      [LOp.insertToTail 5]) 1 =
    some ((runOps ((list_create_func_ 2 1).getD LState.default0)
      [LOp.insertToTail 5]).data 1) :=
  (@c3_get_validation (runOps ((list_create_func_ 2 1).getD LState.default0)
    [LOp.insertToTail 5]) [1] [2] (by decide)).1 1 (by decide)

/-- Counterexample to C3 as stated: on a valid list, `list_get` at the
sentinel iterator `0` does NOT return "no value" — it hands back the
sentinel slot's payload. -/
theorem c3_sentinel_get_counterexample :
    list_verify (runOps ((list_create_func_ 2 1).getD LState.default0)
      [LOp.insertToTail 5]) = LIST_NO_ERR ∧
    list_get (runOps ((list_create_func_ 2 1).getD LState.default0)
      [LOp.insertToTail 5]) 0 ≠ none := by decide

/-- C9 (amended): `list_insert_after` and `list_erase` do validate the
iterator first and return `LIST_BAD_ITERATOR` leaving the list untouched,
but `list_insert_before` reads `prevs[it]` BEFORE any validation and
forwards it to `list_insert_after`, so an invalid iterator is not rejected
up front there. -/
theorem c9_iterator_validation {l : LState} {it : Nat}
    (hbad : list_check_iterator l it = false) :
    (∀ v, list_insert_after l it v = (LIST_BAD_ITERATOR, l)) ∧
    list_erase l it = (LIST_BAD_ITERATOR, l, it) ∧
    (∀ v, list_insert_before l it v = list_insert_after l (l.prevs it) v) := by
  refine ⟨?_, ?_, fun v => rfl⟩
  · intro v
    simp [list_insert_after, hbad]
  · simp [list_erase, hbad]

/-- Witness for C9: the out-of-range iterator `3` (equal to the internal
capacity) is rejected by `insert_after` on a concrete valid list. -/
theorem c9_iterator_validation_witness :
    list_insert_after (runOps ((list_create_func_ 2 1).getD LState.default0)
      [LOp.insertToTail 5]) 3 99 =
    (LIST_BAD_ITERATOR, runOps ((list_create_func_ 2 1).getD LState.default0)
      [LOp.insertToTail 5]) :=
  (c9_iterator_validation (by decide)).1 99

/-- Counterexample to C9 as stated: on a valid list, `list_insert_before`
with the out-of-range iterator `3` (≥ capacity) returns `LIST_NO_ERR`
instead of `LIST_BAD_ITERATOR`: it dereferences `prevs[3]` without any
prior validation and happily inserts. -/
theorem c9_insert_before_counterexample :
    list_verify (runOps ((list_create_func_ 2 1).getD LState.default0)
      [LOp.insertToTail 5]) = LIST_NO_ERR ∧
    list_check_iterator (runOps ((list_create_func_ 2 1).getD LState.default0)
      [LOp.insertToTail 5]) 3 = false ∧
    (list_insert_before (runOps ((list_create_func_ 2 1).getD LState.default0)
      [LOp.insertToTail 5]) 3 99).1 = LIST_NO_ERR := by decide

/-- C2 (code bug): `list_normalize` does NOT leave the logical sequence of
values unchanged.  On the valid non-normalized two-element list built by
`insert_to_tail 20; insert_to_head 10` (values `[10, 20]`, internal size
3 > 1), normalizing corrupts the list: the forward walk afterwards yields
`[20]` — the first element's value has been lost — and `list_verify` no
longer returns `LIST_NO_ERR`.  The bug: when the swap displaces the very
element the cursor was about to visit, the cursor (`tmp_it`) goes stale. -/
theorem c2_normalize_bug :
    list_verify (runOps ((list_create_func_ 2 1).getD LState.default0)
      [LOp.insertToTail 20, LOp.insertToHead 10]) = LIST_NO_ERR ∧
    (runOps ((list_create_func_ 2 1).getD LState.default0)
      [LOp.insertToTail 20, LOp.insertToHead 10]).normalized = false ∧
    listVals (runOps ((list_create_func_ 2 1).getD LState.default0)
      [LOp.insertToTail 20, LOp.insertToHead 10]) = [10, 20] ∧
    listVals (list_normalize (runOps ((list_create_func_ 2 1).getD LState.default0)
      [LOp.insertToTail 20, LOp.insertToHead 10])) = [20] ∧
    list_verify (list_normalize (runOps ((list_create_func_ 2 1).getD LState.default0)
      [LOp.insertToTail 20, LOp.insertToHead 10])) ≠ LIST_NO_ERR := by decide

/-- C4 (code bug): `list_clear` does not reset `head`, `tail` or
`first_free`.  On the valid one-element list built by `insert_to_tail 7`,
`list_clear` returns `LIST_NO_ERR` and shrinks the capacity, but leaves
`head = 1` (a now-free slot) instead of `0`, so `list_verify` afterwards
returns `LIST_BAD_HEAD_ITERATOR` instead of `LIST_NO_ERR`: the cleared
list is not structurally valid, contrary to the claim. -/
theorem c4_clear_bug :
    list_verify (runOps ((list_create_func_ 1 1).getD LState.default0)
      [LOp.insertToTail 7]) = LIST_NO_ERR ∧
    (list_clear (runOps ((list_create_func_ 1 1).getD LState.default0)
      [LOp.insertToTail 7])).1 = LIST_NO_ERR ∧
    (list_clear (runOps ((list_create_func_ 1 1).getD LState.default0)
      [LOp.insertToTail 7])).2.head = 1 ∧
    (list_clear (runOps ((list_create_func_ 1 1).getD LState.default0)
      [LOp.insertToTail 7])).2.capacity = 1 ∧
    list_verify (list_clear (runOps ((list_create_func_ 1 1).getD LState.default0)
      [LOp.insertToTail 7])).2 = LIST_BAD_HEAD_ITERATOR := by decide

/-- C8 (code bug): growing and then shrinking the capacity does NOT
preserve the logical contents.  On the valid list with values `[10, 20]`
(internal size 3, capacity 5), growing to 9 succeeds and keeps the values,
but shrinking back to 4 (≥ size) also reports `LIST_NO_ERR` while the
forward walk afterwards yields `[20]` instead of `[10, 20]`: the shrink
path first runs the corrupting `list_normalize` (see C2) and then
truncates the free chain without re-terminating it. -/
theorem c8_grow_shrink_bug :
    list_verify (runOps ((list_create_func_ 4 1).getD LState.default0)
      [LOp.insertToTail 20, LOp.insertToHead 10]) = LIST_NO_ERR ∧
    listVals (runOps ((list_create_func_ 4 1).getD LState.default0)
      [LOp.insertToTail 20, LOp.insertToHead 10]) = [10, 20] ∧
    (list_change_capacity (runOps ((list_create_func_ 4 1).getD LState.default0)
      [LOp.insertToTail 20, LOp.insertToHead 10]) 9).1 = LIST_NO_ERR ∧
    (list_change_capacity (list_change_capacity
      (runOps ((list_create_func_ 4 1).getD LState.default0)
        [LOp.insertToTail 20, LOp.insertToHead 10]) 9).2 4).1 = LIST_NO_ERR ∧
    listVals (list_change_capacity (list_change_capacity
      (runOps ((list_create_func_ 4 1).getD LState.default0)
        [LOp.insertToTail 20, LOp.insertToHead 10]) 9).2 4).2 = [20] := by decide

/-- C5 (amended): when the allocation inside `list_change_capacity` fails,
the function returns `LIST_ALLOC_ERR`, but the list is NOT left in its
prior state on the shrinking path: the new state is `list_normalize l`
whenever the new capacity is smaller than the current one (the side effect
of the pre-allocation `list_normalize` call survives the failure), and
only on the non-shrinking path is the list untouched. -/
theorem c5_alloc_failure (l : LState) (nc : Nat) (hsz : l.size ≤ nc + 1) :
    list_change_capacity_a false l nc =
      (LIST_ALLOC_ERR, if nc + 1 < l.capacity then list_normalize l else l) := by
  have h1 : ¬ (nc + 1 < l.size) := by omega
  simp [list_change_capacity_a, if_neg h1]

/-- Witness for C5 on a concrete list with a shrinking request. -/
theorem c5_alloc_failure_witness :
    (runOps ((list_create_func_ 4 1).getD LState.default0)
      [LOp.insertToTail 20, LOp.insertToHead 10]).size ≤ 3 + 1 ∧
    list_change_capacity_a false (runOps ((list_create_func_ 4 1).getD LState.default0)
      [LOp.insertToTail 20, LOp.insertToHead 10]) 3 =
      (LIST_ALLOC_ERR,
       if 3 + 1 < (runOps ((list_create_func_ 4 1).getD LState.default0)
         [LOp.insertToTail 20, LOp.insertToHead 10]).capacity
       then list_normalize (runOps ((list_create_func_ 4 1).getD LState.default0)
         [LOp.insertToTail 20, LOp.insertToHead 10])
       else runOps ((list_create_func_ 4 1).getD LState.default0)
         [LOp.insertToTail 20, LOp.insertToHead 10]) :=
  ⟨by decide, c5_alloc_failure _ 3 (by decide)⟩

/-- Counterexample to C5 as stated: an allocation failure during a
shrinking `list_change_capacity` returns `LIST_ALLOC_ERR` but leaves the
list in a DIFFERENT state than before the call (here even the head has
moved), refuting the all-or-nothing claim. -/
theorem c5_shrink_fail_counterexample :
    list_verify (runOps ((list_create_func_ 4 1).getD LState.default0)
      [LOp.insertToTail 20, LOp.insertToHead 10]) = LIST_NO_ERR ∧
    (list_change_capacity_a false (runOps ((list_create_func_ 4 1).getD LState.default0)
      [LOp.insertToTail 20, LOp.insertToHead 10]) 3).1 = LIST_ALLOC_ERR ∧
    (list_change_capacity_a false (runOps ((list_create_func_ 4 1).getD LState.default0)
      [LOp.insertToTail 20, LOp.insertToHead 10]) 3).2.head ≠
    (runOps ((list_create_func_ 4 1).getD LState.default0)
      [LOp.insertToTail 20, LOp.insertToHead 10]).head := by decide
